import Mathlib

/-!
# Expression engine of the calculator (`src/Script.js`)

A shallow embedding of the expression engine: the symbol tables `CONSTANTS`,
`OPERATORS`, `FUNCTIONS`, the tokenizer (`isUnaryMinus`, `tokenize`), the
shunting-yard converter (`toRpn`) and the postfix evaluator (`evaluateRpn`);
and of the two handlers that read and write the page state,
`evaluateExpression` and `handleVariableSubmit`.

Conventions of the embedding.

* A thrown `Error(message)` is `Result.fail (Failure.error message)`; a fault of
  the language itself (calling `undefined`, reading a property of `undefined`)
  is `Failure.typeError`.
* JavaScript numbers are IEEE doubles.  Their arithmetic is not part of the
  repository, so it is a parameter `ops : NumberOps α` of every definition that
  computes with numbers.  General theorems hold for every `ops`; the numeric
  examples are stated in `exactOps`, arithmetic on `ℚ` without rounding.
* Arrays used as stacks (`stack.push`, `stack.pop`) are lists whose head is the
  top of the stack; arrays that only grow at the end (`tokens`, `output`) are
  lists in source order.
* The scanning index `i` of `tokenize` is represented by the unread suffix
  `expression.slice(i)`; `i` is `expression.length` minus the suffix length.
* The object `state` is a record; its field `variables` is called `vars`, the
  source's name being a reserved word.  What a handler shows on the page
  (`showResult`) is returned next to the new state; the rendering of the lists
  is left out.
* The expression is a sequence of characters.  A character outside the Basic
  Multilingual Plane is two UTF-16 code units in the source and one `Char`
  here; both are rejected as unsupported characters.
-/

namespace Calc

/-- What a call can throw. -/
inductive Failure where
  /-- The code executed `throw new Error(message)`. -/
  | error (message : String)
  /-- The language raised a `TypeError` (a table lookup gave `undefined` and the
  result was used as an object or called). -/
  | typeError
  /-- The iteration budget of a loop model ran out; `tokenize` never returns this
  (`tokenizeLoop_no_timeout`). -/
  | timeout
  deriving DecidableEq, Repr

/-- The outcome of a call that may throw. -/
inductive Result (β : Type) where
  | ok (value : β)
  | fail (failure : Failure)
  deriving DecidableEq, Repr

/-- Sequencing of calls inside one `try` block: the first throw wins. -/
def Result.bind {β γ : Type} : Result β → (β → Result γ) → Result γ
  | .ok v, f => f v
  | .fail e, _ => .fail e

/-- Shorthand for `throw new Error(message)`. -/
def raise {β : Type} (message : String) : Result β :=
  .fail (.error message)

/-- The token objects `{ type, value }` built by `tokenize`. -/
inductive Token (α : Type) where
  | number (value : α)
  | identifier (value : String)
  | function (value : String)
  | operator (value : Char)
  | paren (value : Char)
  deriving DecidableEq, Repr

/-- The number primitives of the host language that the engine calls. -/
structure NumberOps (α : Type) where
  /-- `Number(text)` for the text of a numeric literal. -/
  parse : String → α
  /-- The literal `0`. -/
  zero : α
  /-- `a + b`. -/
  add : α → α → α
  /-- `a - b`. -/
  sub : α → α → α
  /-- `a * b`. -/
  mul : α → α → α
  /-- `a / b`. -/
  div : α → α → α
  /-- `Math.pow(a, b)`. -/
  pow : α → α → α
  /-- `b === 0`. -/
  isZero : α → Bool
  /-- `value < 0`. -/
  isNegative : α → Bool
  /-- `Math.sqrt(value)`. -/
  sqrt : α → α
  /-- `Math.sin(value)`. -/
  sin : α → α
  /-- `Math.cos(value)`. -/
  cos : α → α
  /-- `Math.tan(value)`. -/
  tan : α → α
  /-- `Number.isFinite(x)`. -/
  isFinite : α → Bool
  /-- `Number.isNaN(x)`. -/
  isNaN : α → Bool

/-- An entry of `OPERATORS`: `{ precedence, assoc, fn }`. -/
structure OperatorSpec (α : Type) where
  precedence : Nat
  assoc : Char
  fn : α → α → Result α

/-- The table `OPERATORS` (lines 6-21), as the lookup `OPERATORS[op]` for a
one-character key; `none` is `undefined`. -/
def OPERATORS {α : Type} (ops : NumberOps α) (op : Char) : Option (OperatorSpec α) :=
  if op = '+' then some ⟨1, 'L', fun a b => .ok (ops.add a b)⟩
  else if op = '-' then some ⟨1, 'L', fun a b => .ok (ops.sub a b)⟩
  else if op = '*' then some ⟨2, 'L', fun a b => .ok (ops.mul a b)⟩
  else if op = '/' then
    some ⟨2, 'L', fun a b =>
      if ops.isZero b then raise "Division by zero is not allowed."
      else .ok (ops.div a b)⟩
  else if op = '^' then some ⟨3, 'R', fun a b => .ok (ops.pow a b)⟩
  else none

/-- The own entries of the table `FUNCTIONS` (lines 23-39), in source order. -/
def FUNCTIONS {α : Type} (ops : NumberOps α) : List (String × (α → Result α)) :=
  [ ("sqrt", fun value =>
      if ops.isNegative value then
        raise "Square root requires a non-negative number."
      else .ok (ops.sqrt value)),
    ("sin", fun value => .ok (ops.sin value)),
    ("cos", fun value => .ok (ops.cos value)),
    ("tan", fun value =>
      let result := ops.tan value
      if !ops.isFinite result then raise "Tangent is undefined for this angle."
      else .ok result) ]

/-- The keys of `FUNCTIONS`. -/
def functionNames : List String := ["sqrt", "sin", "cos", "tan"]

/-- Properties every object literal inherits from `Object.prototype` whose call
with one number returns a value that is not a number (an object, a boolean, a
string or `undefined`). -/
def inheritedNonNumeric : List String :=
  ["constructor", "hasOwnProperty", "isPrototypeOf", "propertyIsEnumerable",
   "toLocaleString", "toString", "valueOf", "__lookupGetter__", "__lookupSetter__"]

/-- Properties inherited from `Object.prototype` that are truthy but throw a
`TypeError` when called with one number (`__proto__` is not callable, the two
definers reject a missing accessor function). -/
def inheritedThrowing : List String :=
  ["__defineGetter__", "__defineSetter__", "__proto__"]

/-- What the property read `FUNCTIONS[name]` evaluates to. -/
inductive FunctionEntry (α : Type) where
  /-- An own entry of the table. -/
  | own (fn : α → Result α)
  /-- An inherited method whose result is not a number. -/
  | inheritedValue
  /-- An inherited property whose call throws a `TypeError`. -/
  | inheritedThrows

/-- The property read `FUNCTIONS[name]`: own entries first, then the prototype
chain of the object literal; `none` is `undefined`. -/
def functionsGet {α : Type} (ops : NumberOps α) (name : String) : Option (FunctionEntry α) :=
  match (FUNCTIONS ops).lookup name with
  | some fn => some (.own fn)
  | none =>
    if name ∈ inheritedNonNumeric then some .inheritedValue
    else if name ∈ inheritedThrowing then some .inheritedThrows
    else none

/-- The test `/\s/.test(char)`: the white space and line terminator code points
of the language. -/
def isWhitespace (char : Char) : Bool :=
  let n := char.toNat
  (0x09 ≤ n && n ≤ 0x0D) || n == 0x20 || n == 0xA0 || n == 0x1680 ||
  (0x2000 ≤ n && n ≤ 0x200A) || n == 0x2028 || n == 0x2029 || n == 0x202F ||
  n == 0x205F || n == 0x3000 || n == 0xFEFF

/-- The test `/[0-9]/.test(char)`. -/
def isDigit (char : Char) : Bool :=
  '0'.toNat ≤ char.toNat && char.toNat ≤ '9'.toNat

/-- The test `/[0-9.]/.test(char)`. -/
def isDigitOrDot (char : Char) : Bool :=
  isDigit char || char == '.'

/-- The test `/[a-z]/i.test(char)`; without the `u` flag the case-insensitive
match reaches the ASCII letters only. -/
def isLetter (char : Char) : Bool :=
  ('a'.toNat ≤ char.toNat && char.toNat ≤ 'z'.toNat) ||
  ('A'.toNat ≤ char.toNat && char.toNat ≤ 'Z'.toNat)

/-- The test `/[a-z0-9_]/i.test(char)`. -/
def isIdentifierChar (char : Char) : Bool :=
  isLetter char || isDigit char || char == '_'

/-- The test `"+-*/^".includes(char)` for a one-character string. -/
def isOperatorChar (char : Char) : Bool :=
  char ∈ ['+', '-', '*', '/', '^']

/-- `identifier.toLowerCase()` on the characters of an identifier. -/
def toLowerCase (identifier : List Char) : String :=
  String.mk (identifier.map Char.toLower)

/-- `isUnaryMinus(char, tokens)` (lines 77-86). -/
def isUnaryMinus {α : Type} (char : Char) (tokens : List (Token α)) : Bool :=
  if char ≠ '-' then false
  else
    match tokens.getLast? with
    | none => true
    | some prev =>
      match prev with
      | .operator _ => true
      | .paren value => value == '('
      | .function _ => true
      | _ => false

/-- The inner loop of the numeric branch (lines 102-117): `number` is the text
read so far, the list argument is the input after position `i`; returns the
text of the literal and the input after the last character consumed. -/
def scanNumber (number : List Char) (dotCount : Nat) : List Char → List Char × List Char
  | [] => (number, [])
  | next :: rest =>
    if next = '.' then
      if dotCount > 0 then (number, next :: rest)
      else scanNumber (number ++ [next]) (dotCount + 1) rest
    else if isDigit next then scanNumber (number ++ [next]) dotCount rest
    else (number, next :: rest)

/-- The inner loop of the identifier branch (lines 128-136). -/
def scanIdentifier (identifier : List Char) : List Char → List Char × List Char
  | [] => (identifier, [])
  | next :: rest =>
    if isIdentifierChar next then scanIdentifier (identifier ++ [next]) rest
    else (identifier, next :: rest)

/-- The numeric branch of `tokenize` (lines 100-123) at `char = expression[i]`. -/
def tokenizeNumber {α : Type} (ops : NumberOps α) (char : Char) (rest : List Char)
    (tokens : List (Token α)) : Result (List Char × List (Token α)) :=
  if (scanNumber [char] (if char = '.' then 1 else 0) rest).1 = ['.'] then
    raise "Invalid number format."
  else
    .ok ((scanNumber [char] (if char = '.' then 1 else 0) rest).2,
      tokens ++ [.number (ops.parse
        (String.mk (scanNumber [char] (if char = '.' then 1 else 0) rest).1))])

/-- The identifier branch of `tokenize` (lines 127-144). -/
def tokenizeIdentifier {α : Type} (ops : NumberOps α) (char : Char) (rest : List Char)
    (tokens : List (Token α)) : Result (List Char × List (Token α)) :=
  if (functionsGet ops (toLowerCase (scanIdentifier [char] rest).1)).isSome then
    .ok ((scanIdentifier [char] rest).2,
      tokens ++ [.function (toLowerCase (scanIdentifier [char] rest).1)])
  else
    .ok ((scanIdentifier [char] rest).2,
      tokens ++ [.identifier (toLowerCase (scanIdentifier [char] rest).1)])

/-- The operator branch of `tokenize` (lines 148-153). -/
def tokenizeOperator {α : Type} (ops : NumberOps α) (char : Char) (rest : List Char)
    (tokens : List (Token α)) : Result (List Char × List (Token α)) :=
  if isUnaryMinus char tokens then
    .ok (rest, tokens ++ [.number ops.zero] ++ [.operator char])
  else .ok (rest, tokens ++ [.operator char])

/-- One iteration of the `while (i < expression.length)` loop of `tokenize`
(lines 92-162) at `char = expression[i]`, with `rest` the input after position
`i`; returns the input left after the iteration and the token array. -/
def tokenizeStep {α : Type} (ops : NumberOps α) (char : Char) (rest : List Char)
    (tokens : List (Token α)) : Result (List Char × List (Token α)) :=
  if isWhitespace char then .ok (rest, tokens)
  else if isDigitOrDot char then tokenizeNumber ops char rest tokens
  else if isLetter char then tokenizeIdentifier ops char rest tokens
  else if isOperatorChar char then tokenizeOperator ops char rest tokens
  else if char = '(' ∨ char = ')' then .ok (rest, tokens ++ [.paren char])
  else raise ("Unsupported character \"" ++ char.toString ++ "\".")

/-- The `while` loop of `tokenize`, bounded by `fuel` iterations. -/
def tokenizeLoop {α : Type} (ops : NumberOps α) :
    Nat → List Char → List (Token α) → Result (List (Token α))
  | _, [], tokens => .ok tokens
  | 0, _ :: _, _ => .fail .timeout
  | fuel + 1, char :: rest, tokens =>
    match tokenizeStep ops char rest tokens with
    | .ok (rest', tokens') => tokenizeLoop ops fuel rest' tokens'
    | .fail e => .fail e

/-- The `while` loop of `tokenize` entered with `rest` still to read, with a
budget of one iteration per character left. -/
def tokenizeFrom {α : Type} (ops : NumberOps α) (rest : List Char) (tokens : List (Token α)) :
    Result (List (Token α)) :=
  tokenizeLoop ops rest.length rest tokens

/-- `tokenize(expression)` (lines 88-165).  Every iteration consumes at least one
character, so `expression.length` iterations are enough. -/
def tokenize {α : Type} (ops : NumberOps α) (expression : String) : Result (List (Token α)) :=
  tokenizeLoop ops expression.length expression.toList []

/-- The operator branch of `toRpn` up to the push (lines 184-196): pops operators
from the stack to the output while `shouldPop` holds. -/
def popOperators {α : Type} (ops : NumberOps α) (currentOp : Char) :
    List (Token α) → List (Token α) → Result (List (Token α) × List (Token α))
  | output, [] => .ok (output, [])
  | output, top :: stack =>
    match top with
    | .operator topOp =>
      match OPERATORS ops topOp, OPERATORS ops currentOp with
      | some topSpec, some currentSpec =>
        if topSpec.precedence > currentSpec.precedence ||
            (topSpec.precedence == currentSpec.precedence && currentSpec.assoc == 'L') then
          popOperators ops currentOp (output ++ [top]) stack
        else .ok (output, top :: stack)
      | _, _ => .fail .typeError
    | _ => .ok (output, top :: stack)

/-- The loop of the `)` branch of `toRpn` (lines 207-215): pops to the output
until a `(` is popped; `none` when the stack empties first
(`foundLeftParen` stays `false`). -/
def popUntilLeftParen {α : Type} :
    List (Token α) → List (Token α) → Option (List (Token α) × List (Token α))
  | _, [] => none
  | output, top :: stack =>
    match top with
    | .paren value =>
      if value = '(' then some (output, stack)
      else popUntilLeftParen (output ++ [top]) stack
    | _ => popUntilLeftParen (output ++ [top]) stack

/-- The callback of `tokens.forEach` in `toRpn` (lines 171-223) on the state
`(output, stack)`. -/
def toRpnStep {α : Type} (ops : NumberOps α) (token : Token α)
    (state : List (Token α) × List (Token α)) : Result (List (Token α) × List (Token α)) :=
  match token with
  | .number _ => .ok (state.1 ++ [token], state.2)
  | .identifier _ => .ok (state.1 ++ [token], state.2)
  | .function _ => .ok (state.1, token :: state.2)
  | .operator currentOp =>
    match popOperators ops currentOp state.1 state.2 with
    | .ok (output, stack) => .ok (output, token :: stack)
    | .fail e => .fail e
  | .paren value =>
    if value = '(' then .ok (state.1, token :: state.2)
    else if value = ')' then
      match popUntilLeftParen state.1 state.2 with
      | none => raise "Mismatched parentheses."
      | some (output, stack) =>
        match stack with
        | .function name :: stack' => .ok (output ++ [.function name], stack')
        | _ => .ok (output, stack)
    else .ok state

/-- The iteration `tokens.forEach(...)` of `toRpn`; a throw ends it. -/
def toRpnLoop {α : Type} (ops : NumberOps α) :
    List (Token α) → List (Token α) × List (Token α) →
      Result (List (Token α) × List (Token α))
  | [], state => .ok state
  | token :: tokens, state =>
    match toRpnStep ops token state with
    | .ok state' => toRpnLoop ops tokens state'
    | .fail e => .fail e

/-- The final loop of `toRpn` (lines 225-231). -/
def drainStack {α : Type} : List (Token α) → List (Token α) → Result (List (Token α))
  | output, [] => .ok output
  | output, top :: stack =>
    match top with
    | .paren _ => raise "Mismatched parentheses."
    | _ => drainStack (output ++ [top]) stack

/-- `toRpn(tokens)` (lines 167-234). -/
def toRpn {α : Type} (ops : NumberOps α) (tokens : List (Token α)) : Result (List (Token α)) :=
  match toRpnLoop ops tokens ([], []) with
  | .ok (output, stack) => drainStack output stack
  | .fail e => .fail e

/-- The scope object: own keys with their values; a key is looked up at its first
occurrence. -/
abbrev Scope (α : Type) := List (String × α)

/-- The check `!Number.isFinite(result) || Number.isNaN(result)` of `evaluateRpn`,
throwing `message` when it holds. -/
def validate {α : Type} (ops : NumberOps α) (message : String) (result : α) : Result α :=
  if !ops.isFinite result || ops.isNaN result then raise message else .ok result

/-- The function branch of `evaluateRpn` after the pop (lines 258-261):
`FUNCTIONS[name](value)` followed by the check of the result. -/
def applyFunction {α : Type} (ops : NumberOps α) (name : String) (value : α) : Result α :=
  match functionsGet ops name with
  | some (.own fn) => (fn value).bind (validate ops "Invalid function result.")
  | some .inheritedValue => raise "Invalid function result."
  | some .inheritedThrows => .fail .typeError
  | none => .fail .typeError

/-- The operator branch of `evaluateRpn` after the pops (lines 272-275):
`OPERATORS[op].fn(left, right)` followed by the check of the result. -/
def applyOperator {α : Type} (ops : NumberOps α) (op : Char) (left right : α) : Result α :=
  match OPERATORS ops op with
  | some spec => (spec.fn left right).bind (validate ops "Invalid mathematical result.")
  | none => .fail .typeError

/-- The callback of `rpnTokens.forEach` in `evaluateRpn` (lines 239-278) on the
value stack. -/
def evaluateRpnStep {α : Type} (ops : NumberOps α) (scope : Scope α) (token : Token α)
    (stack : List α) : Result (List α) :=
  match token with
  | .number value => .ok (value :: stack)
  | .identifier name =>
    match scope.lookup name with
    | some value => .ok (value :: stack)
    | none => raise ("Unknown variable or constant \"" ++ name ++ "\".")
  | .function name =>
    match stack with
    | [] => raise "Incomplete expression: missing argument."
    | value :: stack' =>
      match applyFunction ops name value with
      | .ok result => .ok (result :: stack')
      | .fail e => .fail e
  | .operator op =>
    match stack with
    | right :: left :: stack' =>
      match applyOperator ops op left right with
      | .ok result => .ok (result :: stack')
      | .fail e => .fail e
    | _ => raise "Incomplete expression: missing values."
  | .paren _ => .ok stack

/-- The iteration `rpnTokens.forEach(...)` of `evaluateRpn`; a throw ends it. -/
def evaluateRpnLoop {α : Type} (ops : NumberOps α) (scope : Scope α) :
    List (Token α) → List α → Result (List α)
  | [], stack => .ok stack
  | token :: tokens, stack =>
    match evaluateRpnStep ops scope token stack with
    | .ok stack' => evaluateRpnLoop ops scope tokens stack'
    | .fail e => .fail e

/-- `evaluateRpn(rpnTokens, scope)` (lines 236-285). -/
def evaluateRpn {α : Type} (ops : NumberOps α) (scope : Scope α) (rpnTokens : List (Token α)) :
    Result α :=
  match evaluateRpnLoop ops scope rpnTokens [] with
  | .ok [value] => .ok value
  | .ok _ => raise "Incomplete expression."
  | .fail e => .fail e

/-- The pipeline inside the `try` block of `evaluateExpression` (lines 295-298):
`evaluateRpn(toRpn(tokenize(expression)), scope)`. -/
def evaluate {α : Type} (ops : NumberOps α) (scope : Scope α) (expression : String) : Result α :=
  (tokenize ops expression).bind fun tokens =>
    (toRpn ops tokens).bind fun rpn => evaluateRpn ops scope rpn

/-! ### Exact arithmetic

The instance of `NumberOps` used for the numeric examples: finite numbers are
rationals and every operation is computed without rounding, so it agrees with
the doubles of the source wherever those are exact.  `none` stands for a value
that is not a finite number (`Infinity`, `-Infinity`, `NaN`).  The functions
whose values are not rational are a parameter. -/

/-- The library functions with irrational values: `Math.pow` at a non-integer
exponent, `Math.sqrt`, `Math.sin`, `Math.cos`, `Math.tan`. -/
structure MathFunctions where
  powFractional : ℚ → ℚ → Option ℚ
  sqrt : ℚ → Option ℚ
  sin : ℚ → Option ℚ
  cos : ℚ → Option ℚ
  tan : ℚ → Option ℚ

/-- The value of a run of decimal digits. -/
def digitsValue (digits : List Char) : Nat :=
  digits.foldl (fun acc d => 10 * acc + (d.toNat - '0'.toNat)) 0

/-- `Number(text)` for a text of decimal digits with at most one `.`. -/
def parseDecimal (text : String) : ℚ :=
  let whole := text.toList.takeWhile (fun c => c != '.')
  let fraction := (text.toList.dropWhile (fun c => c != '.')).drop 1
  (digitsValue (whole ++ fraction) : ℚ) / (10 ^ fraction.length : ℕ)

/-- `Math.pow(a, b)` on finite numbers, exact at integer exponents. -/
def exactPow (m : MathFunctions) (a b : ℚ) : Option ℚ :=
  if b.den = 1 then
    if a = 0 ∧ b.num < 0 then none else some (a ^ b.num)
  else m.powFractional a b

/-- Arithmetic on rationals without rounding. -/
def exactOps (m : MathFunctions) : NumberOps (Option ℚ) where
  parse := fun text => some (parseDecimal text)
  zero := some 0
  add := fun a b => a.bind fun x => b.bind fun y => some (x + y)
  sub := fun a b => a.bind fun x => b.bind fun y => some (x - y)
  mul := fun a b => a.bind fun x => b.bind fun y => some (x * y)
  div := fun a b => a.bind fun x => b.bind fun y => if y = 0 then none else some (x / y)
  pow := fun a b => a.bind fun x => b.bind fun y => exactPow m x y
  isZero := fun b => b == some 0
  isNegative := fun value => match value with
    | some x => decide (x < 0)
    | none => false
  sqrt := fun value => value.bind m.sqrt
  sin := fun value => value.bind m.sin
  cos := fun value => value.bind m.cos
  tan := fun value => value.bind m.tan
  isFinite := fun x => x.isSome
  isNaN := fun _ => false

/-- A choice of the irrational functions for evaluating examples that do not
call them. -/
def noMathFunctions : MathFunctions :=
  ⟨fun _ _ => none, fun _ => none, fun _ => none, fun _ => none, fun _ => none⟩

/-! ### Vocabulary of the statements -/

/-- A run the numeric branch reads as one literal: digits with at most one `.`,
other than the lone `.`. -/
def numericRun (text : List Char) : Bool :=
  !text.isEmpty && text.all isDigitOrDot && decide (text.count '.' ≤ 1) && text != ['.']

/-- The text of a numeric literal. -/
def isNumericLiteral (text : String) : Bool :=
  numericRun text.toList

/-- The input after a literal `text` lets the numeric scan stop there: it is
empty, or starts with a character that is not a digit and is not a first `.`. -/
def endsNumber (text rest : List Char) : Bool :=
  match rest with
  | [] => true
  | next :: _ => !isDigit next && (next != '.' || decide (0 < text.count '.'))

/-- A run the identifier branch reads as one name: a letter followed by letters,
digits and underscores. -/
def identifierRun (text : List Char) : Bool :=
  match text with
  | [] => false
  | first :: more => isLetter first && more.all isIdentifierChar

/-- The text of an identifier. -/
def isIdentifierName (text : String) : Bool :=
  identifierRun text.toList

/-- The input after an identifier lets the identifier scan stop there. -/
def endsIdentifier (rest : List Char) : Bool :=
  match rest with
  | [] => true
  | next :: _ => !isIdentifierChar next

/-- The token is the Paren token `(`. -/
def isOpenParen {α : Type} : Token α → Bool
  | .paren value => value == '('
  | _ => false

/-- The token is the Paren token `)`. -/
def isCloseParen {α : Type} : Token α → Bool
  | .paren value => value == ')'
  | _ => false

/-- The Paren tokens of a sequence are balanced: no prefix contains more `)`
than `(`, and the totals agree. -/
def parensBalanced {α : Type} (tokens : List (Token α)) : Bool :=
  tokens.inits.all (fun pre => decide (pre.countP isCloseParen ≤ pre.countP isOpenParen)) &&
    (tokens.countP isOpenParen == tokens.countP isCloseParen)

/-- The nesting depth after reading `tokens` from depth `depth`; `none` when a
`)` arrives at depth 0. -/
def parenDepth {α : Type} : List (Token α) → Nat → Option Nat
  | [], depth => some depth
  | token :: tokens, depth =>
    if isOpenParen token then parenDepth tokens (depth + 1)
    else if isCloseParen token then
      if depth = 0 then none else parenDepth tokens (depth - 1)
    else parenDepth tokens depth

/-- Every Operator token of the sequence carries a key of `OPERATORS`, as the
tokens built by `tokenize` do. -/
def operatorsKnown {α : Type} (ops : NumberOps α) (tokens : List (Token α)) : Prop :=
  ∀ op, Token.operator op ∈ tokens → (OPERATORS ops op).isSome = true

/-- The token is a Paren token. -/
def isParen {α : Type} : Token α → Bool
  | .paren _ => true
  | _ => false

/-- The token is an operand: a Number or an Identifier token. -/
def isOperand {α : Type} : Token α → Bool
  | .number _ => true
  | .identifier _ => true
  | _ => false

/-- The shape of the stack of `toRpn` between two tokens: its operators are keys
of `OPERATORS` and its Paren tokens are all `(`. -/
def stackInvariant {α : Type} (ops : NumberOps α) (stack : List (Token α)) : Prop :=
  operatorsKnown ops stack ∧ ∀ t ∈ stack, isParen t = true → isOpenParen t = true

/-- The shape of the state of `toRpn` between two tokens that its output
guarantees rest on: no Paren token in the output, no Paren token other than `(`
on the stack, and no operand on the stack. -/
def stateInvariant {α : Type} (output stack : List (Token α)) : Prop :=
  (∀ t ∈ output, isParen t = false) ∧
  (∀ t ∈ stack, isParen t = true → isOpenParen t = true) ∧
  (∀ t ∈ stack, isOperand t = false)

/-- A token as `tokenize` builds it: an operator is one of `+ - * / ^`, a
function name is a key of `FUNCTIONS` or the inherited `constructor`, a
parenthesis is `(` or `)`. -/
def tokenFromTokenizer {α : Type} : Token α → Prop
  | .operator value => isOperatorChar value = true
  | .function value => value ∈ functionNames ∨ value = "constructor"
  | .paren value => value = '(' ∨ value = ')'
  | _ => True

/-- The fixed messages of the errors the engine throws. -/
def fixedMessages : List String :=
  ["Invalid number format.", "Mismatched parentheses.",
   "Incomplete expression: missing argument.", "Incomplete expression: missing values.",
   "Incomplete expression.", "Division by zero is not allowed.",
   "Square root requires a non-negative number.", "Tangent is undefined for this angle.",
   "Invalid function result.", "Invalid mathematical result."]

/-- The message of one of the errors the engine throws. -/
def isEngineMessage (message : String) : Prop :=
  message ∈ fixedMessages ∨
  (∃ char : Char, message = "Unsupported character \"" ++ char.toString ++ "\".") ∨
  (∃ name : String, message = "Unknown variable or constant \"" ++ name ++ "\".")

/-- The call returned, or threw one of the engine's own errors: no `TypeError`
and no exhausted loop budget. -/
def Result.handled {β : Type} : Result β → Prop
  | .ok _ => True
  | .fail (.error message) => isEngineMessage message
  | .fail _ => False

/-! ### Expression trees -/

/-- An expression as a tree: Number and Identifier leaves, binary operator nodes
and unary function applications. -/
inductive ExprTree (α : Type) where
  | number (value : α)
  | identifier (name : String)
  | binary (op : Char) (left right : ExprTree α)
  | call (name : String) (argument : ExprTree α)

/-- The tokens of the fully parenthesised infix rendering: a binary node is
written `(l op r)` and a function node `f(arg)`. -/
def ExprTree.infixTokens {α : Type} : ExprTree α → List (Token α)
  | .number value => [.number value]
  | .identifier name => [.identifier name]
  | .binary op left right =>
    [.paren '('] ++ left.infixTokens ++ [.operator op] ++ right.infixTokens ++ [.paren ')']
  | .call name argument => [.function name, .paren '('] ++ argument.infixTokens ++ [.paren ')']

/-- The post-order traversal: operands before their operator, the argument
before its function. -/
def ExprTree.postOrder {α : Type} : ExprTree α → List (Token α)
  | .number value => [.number value]
  | .identifier name => [.identifier name]
  | .binary op left right => left.postOrder ++ right.postOrder ++ [.operator op]
  | .call name argument => argument.postOrder ++ [.function name]

/-- The operator step in the words of the specification: compute
`left op right` by the operator's rule (division failing on a zero divisor),
then validate finiteness. -/
def recursiveOperator {α : Type} (ops : NumberOps α) (op : Char) (left right : α) : Result α :=
  if op = '+' then validate ops "Invalid mathematical result." (ops.add left right)
  else if op = '-' then validate ops "Invalid mathematical result." (ops.sub left right)
  else if op = '*' then validate ops "Invalid mathematical result." (ops.mul left right)
  else if op = '/' then
    if ops.isZero right then raise "Division by zero is not allowed."
    else validate ops "Invalid mathematical result." (ops.div left right)
  else if op = '^' then validate ops "Invalid mathematical result." (ops.pow left right)
  else .fail .typeError

/-- Recursive evaluation of a tree in the words of the specification: a leaf is
its value (an identifier is looked up in the scope or fails), a binary node
evaluates its left subtree, then its right subtree, then applies the operator
to `left` and `right`; a function node applies the function to its argument. -/
def ExprTree.evalRecursive {α : Type} (ops : NumberOps α) (scope : Scope α) :
    ExprTree α → Result α
  | .number value => .ok value
  | .identifier name =>
    match scope.lookup name with
    | some value => .ok value
    | none => raise ("Unknown variable or constant \"" ++ name ++ "\".")
  | .binary op left right =>
    (left.evalRecursive ops scope).bind fun l =>
      (right.evalRecursive ops scope).bind fun r => recursiveOperator ops op l r
  | .call name argument =>
    (argument.evalRecursive ops scope).bind fun value => applyFunction ops name value

/-- The unary context of the specification: no token precedes, or the preceding
token is an Operator, an opening parenthesis or a Function. -/
def unaryContext {α : Type} (tokens : List (Token α)) : Prop :=
  tokens = [] ∨ ∃ before prev, tokens = before ++ [prev] ∧
    ((∃ op, prev = .operator op) ∨ prev = .paren '(' ∨ ∃ name, prev = .function name)

/-- Two texts that differ at most in the case of their letters: they agree
character by character once lower-cased. -/
def sameUpToCase (s t : String) : Prop :=
  s.toList.map Char.toLower = t.toList.map Char.toLower

/-! ### The page state and its handlers -/

/-- The table `CONSTANTS` (lines 1-4): own keys with their values. -/
def CONSTANTS {α : Type} (ops : NumberOps α) : List (String × α) :=
  [("pi", ops.parse "3.1415"), ("e", ops.parse "2.7182")]

/-- The string primitives of the host language that the handlers call on text
typed by the user. -/
structure TextOps (α : Type) where
  /-- `text.toLowerCase()` on any text. -/
  toLowerCase : String → String
  /-- `Number(text)` on any text. -/
  toNumber : String → α
  /-- `Number(value).toFixed(4)`. -/
  toFixed4 : α → String

/-- `text.trim()`: the text without the white space and line terminators at its
two ends (the characters of `/\s/`). -/
def trim (text : String) : String :=
  String.mk ((text.toList.dropWhile isWhitespace).reverse.dropWhile isWhitespace).reverse

/-- The object `state` (lines 53-56): the variable store as own keys with their
values, and the history as pairs of expression and formatted result, newest
first. -/
structure State (α : Type) where
  /-- The object `state.variables`. -/
  vars : List (String × α)
  /-- The array `state.history`. -/
  history : List (String × String)

/-- What `showResult(message, isError)` puts on the page. -/
structure Display where
  message : String
  isError : Bool
  deriving DecidableEq, Repr

/-- The assignment `object[name] = value` on own keys: an existing key keeps its
place and takes the new value, a new key is added at the end. -/
def setProperty {α : Type} (name : String) (value : α) : List (String × α) → List (String × α)
  | [] => [(name, value)]
  | entry :: entries =>
    if entry.1 = name then (name, value) :: entries
    else entry :: setProperty name value entries

/-- The statement `delete object[name]` on own keys. -/
def deleteProperty {α : Type} (name : String) (entries : List (String × α)) :
    List (String × α) :=
  entries.filter fun entry => entry.1 ≠ name

/-- The scope `{ ...CONSTANTS, ...state.variables }` (line 297): a key of the
variable store hides the constant of the same name. -/
def buildScope {α : Type} (ops : NumberOps α) (vars : List (String × α)) : Scope α :=
  vars ++ CONSTANTS ops

/-- The `message` of a caught error.  The text of a `TypeError` is chosen by the
host; the pipeline produces none (`evaluate_handled`). -/
def Failure.message : Failure → String
  | .error message => message
  | .typeError => "TypeError"
  | .timeout => ""

/-- `handleVariableSubmit` (lines 371-404) on the texts of the two input fields;
returns the new state and what is shown. -/
def handleVariableSubmit {α : Type} (text : TextOps α) (ops : NumberOps α)
    (nameInput valueInput : String) (state : State α) : State α × Display :=
  if text.toLowerCase (trim nameInput) = "" ∨ trim valueInput = "" then
    (state, ⟨"Enter both variable name and value.", true⟩)
  else if identifierRun (text.toLowerCase (trim nameInput)).toList = false then
    (state, ⟨"Variable names must start with a letter and contain only letters, numbers, or underscores.", true⟩)
  else if ((CONSTANTS ops).lookup (text.toLowerCase (trim nameInput))).isSome then
    (state, ⟨"Cannot override built-in constants (pi, e).", true⟩)
  else if ops.isNaN (text.toNumber (trim valueInput)) then
    (state, ⟨"Variable value must be a valid number.", true⟩)
  else
    ({ state with
        vars := setProperty (text.toLowerCase (trim nameInput))
          (text.toNumber (trim valueInput)) state.vars },
      ⟨"Variable \"" ++ text.toLowerCase (trim nameInput) ++ "\" saved.", false⟩)

/-- The click handler of a variable's Remove button (lines 361-364). -/
def removeVariable {α : Type} (name : String) (state : State α) : State α :=
  { state with vars := deleteProperty name state.vars }

/-- `addHistoryItem(expression, result)` (lines 307-310). -/
def addHistoryItem {α : Type} (expression result : String) (state : State α) : State α :=
  { state with history := (expression, result) :: state.history }

/-- `evaluateExpression` (lines 287-305) on the text of the expression field;
returns the new state and what is shown. -/
def evaluateExpression {α : Type} (text : TextOps α) (ops : NumberOps α) (input : String)
    (state : State α) : State α × Display :=
  if trim input = "" then (state, ⟨"Please enter an expression first.", true⟩)
  else
    match evaluate ops (buildScope ops state.vars) (trim input) with
    | .ok value =>
      (addHistoryItem (trim input) (text.toFixed4 value) state,
        ⟨"Result: " ++ text.toFixed4 value, false⟩)
    | .fail e => (state, ⟨e.message, true⟩)

/-- What the user does on the page. -/
inductive Action where
  | submitVariable (nameInput valueInput : String)
  | removeVariable (name : String)
  | evaluate (input : String)

/-- The state after one action. -/
def step {α : Type} (text : TextOps α) (ops : NumberOps α) (state : State α) :
    Action → State α
  | .submitVariable nameInput valueInput =>
    (handleVariableSubmit text ops nameInput valueInput state).1
  | .removeVariable name => removeVariable name state
  | .evaluate input => (evaluateExpression text ops input state).1

/-- The state after a sequence of actions. -/
def run {α : Type} (text : TextOps α) (ops : NumberOps α) (state : State α)
    (actions : List Action) : State α :=
  actions.foldl (step text ops) state

/-- The state when the page has loaded: no variables, no history. -/
def initialState {α : Type} : State α := ⟨[], []⟩

/-- No key of the variable store is the name of a built-in constant. -/
def noConstantKey {α : Type} (vars : List (String × α)) : Prop :=
  ∀ entry ∈ vars, entry.1 ≠ "pi" ∧ entry.1 ≠ "e"


/-! ### The tokenizer loop terminates -/

theorem scanNumber_length (number : List Char) (dotCount : Nat) (l : List Char) :
    (scanNumber number dotCount l).2.length ≤ l.length := by
  induction l generalizing number dotCount with
  | nil => simp [scanNumber]
  | cons next rest ih =>
    unfold scanNumber
    split
    · split
      · simp
      · exact Nat.le_succ_of_le (ih _ _)
    · split
      · exact Nat.le_succ_of_le (ih _ _)
      · simp

theorem scanIdentifier_length (identifier : List Char) (l : List Char) :
    (scanIdentifier identifier l).2.length ≤ l.length := by
  induction l generalizing identifier with
  | nil => simp [scanIdentifier]
  | cons next rest ih =>
    unfold scanIdentifier
    split
    · exact Nat.le_succ_of_le (ih _)
    · simp

theorem tokenizeNumber_length {α : Type} (ops : NumberOps α) (char : Char) (rest : List Char)
    (tokens : List (Token α)) (rest' : List Char) (tokens' : List (Token α))
    (h : tokenizeNumber ops char rest tokens = .ok (rest', tokens')) :
    rest'.length ≤ rest.length := by
  unfold tokenizeNumber at h
  have hl := scanNumber_length [char] (if char = '.' then 1 else 0) rest
  generalize scanNumber [char] (if char = '.' then 1 else 0) rest = s at h hl
  by_cases hs : s.1 = ['.']
  · rw [if_pos hs] at h; cases h
  · rw [if_neg hs] at h; cases h; exact hl

theorem tokenizeIdentifier_length {α : Type} (ops : NumberOps α) (char : Char)
    (rest : List Char) (tokens : List (Token α)) (rest' : List Char) (tokens' : List (Token α))
    (h : tokenizeIdentifier ops char rest tokens = .ok (rest', tokens')) :
    rest'.length ≤ rest.length := by
  unfold tokenizeIdentifier at h
  have hl := scanIdentifier_length [char] rest
  generalize scanIdentifier [char] rest = s at h hl
  split at h <;> (cases h; exact hl)

theorem tokenizeOperator_length {α : Type} (ops : NumberOps α) (char : Char)
    (rest : List Char) (tokens : List (Token α)) (rest' : List Char) (tokens' : List (Token α))
    (h : tokenizeOperator ops char rest tokens = .ok (rest', tokens')) :
    rest'.length ≤ rest.length := by
  unfold tokenizeOperator at h
  split at h <;> (cases h; exact Nat.le_refl _)

/-- An iteration of the scanning loop leaves no more input than follows the
character it started at: the index moves forward by at least one. -/
theorem tokenizeStep_length {α : Type} (ops : NumberOps α) (char : Char) (rest : List Char)
    (tokens : List (Token α)) (rest' : List Char) (tokens' : List (Token α))
    (h : tokenizeStep ops char rest tokens = .ok (rest', tokens')) :
    rest'.length ≤ rest.length := by
  unfold tokenizeStep at h
  split at h
  · cases h; exact Nat.le_refl _
  · split at h
    · exact tokenizeNumber_length ops char rest tokens rest' tokens' h
    · split at h
      · exact tokenizeIdentifier_length ops char rest tokens rest' tokens' h
      · split at h
        · exact tokenizeOperator_length ops char rest tokens rest' tokens' h
        · split at h
          · cases h; exact Nat.le_refl _
          · cases h

theorem tokenizeLoop_nil {α : Type} (ops : NumberOps α) (fuel : Nat) (tokens : List (Token α)) :
    tokenizeLoop ops fuel [] tokens = .ok tokens := by
  cases fuel <;> rfl

theorem tokenizeLoop_succ {α : Type} (ops : NumberOps α) (fuel : Nat) (char : Char)
    (rest : List Char) (tokens : List (Token α)) :
    tokenizeLoop ops (fuel + 1) (char :: rest) tokens =
      match tokenizeStep ops char rest tokens with
      | .ok (rest', tokens') => tokenizeLoop ops fuel rest' tokens'
      | .fail e => .fail e := rfl

/-- Any two budgets that cover the input give the same result. -/
theorem tokenizeLoop_fuel_eq {α : Type} (ops : NumberOps α) (n : Nat) :
    ∀ (rest : List Char) (tokens : List (Token α)) (fuel₁ fuel₂ : Nat),
      rest.length ≤ n → n ≤ fuel₁ → n ≤ fuel₂ →
      tokenizeLoop ops fuel₁ rest tokens = tokenizeLoop ops fuel₂ rest tokens := by
  induction n with
  | zero =>
    intro rest tokens fuel₁ fuel₂ h _ _
    have : rest = [] := List.length_eq_zero.mp (Nat.le_zero.mp h)
    subst this
    rw [tokenizeLoop_nil, tokenizeLoop_nil]
  | succ n ih =>
    intro rest tokens fuel₁ fuel₂ h h₁ h₂
    cases rest with
    | nil => rw [tokenizeLoop_nil, tokenizeLoop_nil]
    | cons char rest =>
      obtain ⟨f₁, rfl⟩ : ∃ f, fuel₁ = f + 1 := ⟨fuel₁ - 1, by omega⟩
      obtain ⟨f₂, rfl⟩ : ∃ f, fuel₂ = f + 1 := ⟨fuel₂ - 1, by omega⟩
      rw [tokenizeLoop_succ, tokenizeLoop_succ]
      cases hs : tokenizeStep ops char rest tokens with
      | fail e => rfl
      | ok p =>
        obtain ⟨rest', tokens'⟩ := p
        have hl := tokenizeStep_length ops char rest tokens rest' tokens' hs
        simp only [List.length_cons] at h
        exact ih rest' tokens' f₁ f₂ (by omega) (by omega) (by omega)

/-- Unfolding of the loop at a non-empty input, keeping the budget. -/
theorem tokenizeLoop_cons {α : Type} (ops : NumberOps α) (fuel : Nat) (char : Char)
    (rest : List Char) (tokens : List (Token α)) (h : rest.length + 1 ≤ fuel) :
    tokenizeLoop ops fuel (char :: rest) tokens =
      (tokenizeStep ops char rest tokens).bind fun p => tokenizeLoop ops fuel p.1 p.2 := by
  obtain ⟨f, rfl⟩ : ∃ f, fuel = f + 1 := ⟨fuel - 1, by omega⟩
  rw [tokenizeLoop_succ]
  cases hs : tokenizeStep ops char rest tokens with
  | fail e => rfl
  | ok p =>
    obtain ⟨rest', tokens'⟩ := p
    have hl := tokenizeStep_length ops char rest tokens rest' tokens' hs
    exact tokenizeLoop_fuel_eq ops rest.length rest' tokens' f (f + 1) hl (by omega) (by omega)

/-- The loop never exhausts a budget that covers the input. -/
theorem tokenizeLoop_no_timeout {α : Type} (ops : NumberOps α) (fuel : Nat) :
    ∀ (rest : List Char) (tokens : List (Token α)), rest.length ≤ fuel →
      tokenizeLoop ops fuel rest tokens ≠ .fail .timeout := by
  induction fuel with
  | zero =>
    intro rest tokens h
    have : rest = [] := List.length_eq_zero.mp (Nat.le_zero.mp h)
    subst this
    rw [tokenizeLoop_nil]; intro hc; cases hc
  | succ fuel ih =>
    intro rest tokens h
    cases rest with
    | nil => rw [tokenizeLoop_nil]; intro hc; cases hc
    | cons char rest =>
      rw [tokenizeLoop_succ]
      cases hs : tokenizeStep ops char rest tokens with
      | fail e =>
        intro hc
        simp only at hc
        cases hc
        revert hs
        unfold tokenizeStep tokenizeNumber tokenizeIdentifier tokenizeOperator raise
        intro hs
        repeat' split at hs
        all_goals cases hs
      | ok p =>
        obtain ⟨rest', tokens'⟩ := p
        have hl := tokenizeStep_length ops char rest tokens rest' tokens' hs
        simp only [List.length_cons] at h
        exact ih rest' tokens' (by omega)

/-! ### What the tokenizer does on one lexeme -/

theorem isDigit_bounds {c : Char} (h : isDigit c = true) : 48 ≤ c.toNat ∧ c.toNat ≤ 57 := by
  simpa [isDigit] using h

theorem isLetter_bounds {c : Char} (h : isLetter c = true) :
    (97 ≤ c.toNat ∧ c.toNat ≤ 122) ∨ (65 ≤ c.toNat ∧ c.toNat ≤ 90) := by
  simpa [isLetter] using h

theorem isWhitespace_eq_false {c : Char} (h1 : 33 ≤ c.toNat) (h2 : c.toNat ≤ 126) :
    isWhitespace c = false := by
  simp only [isWhitespace, Bool.or_eq_false_iff, Bool.and_eq_false_iff, beq_eq_false_iff_ne,
    decide_eq_false_iff_not]
  omega

theorem isDigitOrDot_cases {c : Char} (h : isDigitOrDot c = true) :
    isDigit c = true ∨ c = '.' := by
  simpa [isDigitOrDot] using h

theorem isWhitespace_of_isDigitOrDot {c : Char} (h : isDigitOrDot c = true) :
    isWhitespace c = false := by
  rcases isDigitOrDot_cases h with h | rfl
  · have := isDigit_bounds h
    exact isWhitespace_eq_false (by omega) (by omega)
  · decide

theorem isWhitespace_of_isLetter {c : Char} (h : isLetter c = true) :
    isWhitespace c = false := by
  have := isLetter_bounds h
  exact isWhitespace_eq_false (by omega) (by omega)

theorem isDigitOrDot_of_isLetter {c : Char} (h : isLetter c = true) :
    isDigitOrDot c = false := by
  have hb := isLetter_bounds h
  simp only [isDigitOrDot, isDigit, Bool.or_eq_false_iff, Bool.and_eq_false_iff,
    beq_eq_false_iff_ne, decide_eq_false_iff_not]
  refine ⟨?_, ?_⟩
  · have : ('0'.toNat = 48) ∧ ('9'.toNat = 57) := by decide
    omega
  · rintro rfl
    revert hb
    decide

theorem scanNumber_run (s : List Char) :
    ∀ (number : List Char) (dotCount : Nat) (rest : List Char),
      (∀ c ∈ s, isDigitOrDot c = true) → dotCount + s.count '.' ≤ 1 →
      (rest = [] ∨ ∃ c r, rest = c :: r ∧ isDigit c = false ∧
        (c = '.' → 0 < dotCount + s.count '.')) →
      scanNumber number dotCount (s ++ rest) = (number ++ s, rest) := by
  induction s with
  | nil =>
    intro number dotCount rest _ _ hstop
    rcases hstop with rfl | ⟨c, r, rfl, hd, hdot⟩
    · simp [scanNumber]
    · simp only [List.nil_append, List.append_nil, scanNumber]
      by_cases hc : c = '.'
      · have := hdot hc
        simp only [List.count_nil, Nat.add_zero] at this
        rw [if_pos hc, if_pos this]
      · rw [if_neg hc, hd]; simp
  | cons x s ih =>
    intro number dotCount rest hall hcount hstop
    have hx := hall x (List.mem_cons_self _ _)
    have hs : ∀ c ∈ s, isDigitOrDot c = true := fun c hc => hall c (List.mem_cons_of_mem _ hc)
    simp only [List.cons_append, scanNumber]
    by_cases hdot : x = '.'
    · subst hdot
      rw [List.count_cons_self] at hcount
      have h0 : dotCount = 0 := by omega
      subst h0
      rw [if_pos rfl, if_neg (by decide)]
      refine (ih (number ++ ['.']) 1 rest hs (by omega) ?_).trans (by simp)
      rcases hstop with rfl | ⟨c, r, rfl, hd, _⟩
      · exact Or.inl rfl
      · exact Or.inr ⟨c, r, rfl, hd, fun _ => by omega⟩
    · rw [List.count_cons_of_ne (fun h => hdot h.symm)] at hcount
      have hdig : isDigit x = true := by
        rcases isDigitOrDot_cases hx with h | h
        · exact h
        · exact absurd h hdot
      rw [if_neg hdot, hdig, if_pos rfl]
      refine (ih (number ++ [x]) dotCount rest hs hcount ?_).trans (by simp)
      rcases hstop with rfl | ⟨c, r, rfl, hd, hc⟩
      · exact Or.inl rfl
      · refine Or.inr ⟨c, r, rfl, hd, fun h => ?_⟩
        have := hc h
        rwa [List.count_cons_of_ne (fun h => hdot h.symm)] at this

theorem scanIdentifier_run (s : List Char) :
    ∀ (identifier : List Char) (rest : List Char),
      (∀ c ∈ s, isIdentifierChar c = true) → endsIdentifier rest = true →
      scanIdentifier identifier (s ++ rest) = (identifier ++ s, rest) := by
  induction s with
  | nil =>
    intro identifier rest _ hstop
    cases rest with
    | nil => simp [scanIdentifier]
    | cons c r =>
      simp only [endsIdentifier, Bool.not_eq_true'] at hstop
      simp [scanIdentifier, hstop]
  | cons x s ih =>
    intro identifier rest hall hstop
    have hx := hall x (List.mem_cons_self _ _)
    have hs : ∀ c ∈ s, isIdentifierChar c = true := fun c hc => hall c (List.mem_cons_of_mem _ hc)
    simp only [List.cons_append, scanIdentifier, hx, if_true]
    exact (ih (identifier ++ [x]) rest hs hstop).trans (by simp)

theorem numericRun_spec {text : List Char} (h : numericRun text = true) :
    ∃ c s, text = c :: s ∧ isDigitOrDot c = true ∧ (∀ x ∈ s, isDigitOrDot x = true) ∧
      text.count '.' ≤ 1 ∧ text ≠ ['.'] := by
  simp only [numericRun, Bool.and_eq_true, Bool.not_eq_true', List.all_eq_true,
    decide_eq_true_eq, bne_iff_ne, ne_eq] at h
  obtain ⟨⟨⟨h1, h2⟩, h3⟩, h4⟩ := h
  cases text with
  | nil => simp at h1
  | cons c s =>
    exact ⟨c, s, rfl, h2 c (List.mem_cons_self _ _),
      fun x hx => h2 x (List.mem_cons_of_mem _ hx), h3, h4⟩

/-- The numeric branch on a literal followed by input that ends it: one Number
token carrying `Number(text)`, and the scan resumes after the literal. -/
theorem tokenizeLoop_number {α : Type} (ops : NumberOps α) (fuel : Nat) (text rest : List Char)
    (tokens : List (Token α)) (htext : numericRun text = true)
    (hend : endsNumber text rest = true) (hfuel : (text ++ rest).length ≤ fuel) :
    tokenizeLoop ops fuel (text ++ rest) tokens =
      tokenizeLoop ops fuel rest (tokens ++ [.number (ops.parse (String.mk text))]) := by
  obtain ⟨c, s, rfl, hc, hs, hcount, hne⟩ := numericRun_spec htext
  have hscan : scanNumber [c] (if c = '.' then 1 else 0) (s ++ rest) = (c :: s, rest) := by
    have hcnt : (if c = '.' then 1 else 0) + s.count '.' = (c :: s).count '.' := by
      by_cases hdot : c = '.'
      · subst hdot; rw [if_pos rfl, List.count_cons_self]; omega
      · rw [if_neg hdot, List.count_cons_of_ne (fun h => hdot h.symm)]; omega
    have := scanNumber_run s [c] (if c = '.' then 1 else 0) rest hs (by omega) (by
      cases rest with
      | nil => exact Or.inl rfl
      | cons x r =>
        simp only [endsNumber, Bool.and_eq_true, Bool.not_eq_true', Bool.or_eq_true,
          bne_iff_ne, ne_eq, decide_eq_true_eq] at hend
        refine Or.inr ⟨x, r, rfl, hend.1, fun hx => ?_⟩
        rcases hend.2 with h | h
        · exact absurd hx h
        · omega)
    simpa using this
  rw [List.cons_append, tokenizeLoop_cons ops fuel c (s ++ rest) tokens (by simpa using hfuel)]
  simp only [tokenizeStep, isWhitespace_of_isDigitOrDot hc, hc, tokenizeNumber, hscan, if_true,
    Bool.false_eq_true, if_false, if_neg hne, Result.bind]


theorem isOperatorChar_cases {c : Char} (h : isOperatorChar c = true) :
    c = '+' ∨ c = '-' ∨ c = '*' ∨ c = '/' ∨ c = '^' := by
  simpa [isOperatorChar] using h

/-- The operator branch: the Operator token, preceded by the synthetic `0` in a
unary context. -/
theorem tokenizeLoop_operator {α : Type} (ops : NumberOps α) (fuel : Nat) (c : Char)
    (rest : List Char) (tokens : List (Token α)) (hc : isOperatorChar c = true)
    (hfuel : rest.length + 1 ≤ fuel) :
    tokenizeLoop ops fuel (c :: rest) tokens =
      tokenizeLoop ops fuel rest
        (if isUnaryMinus c tokens then tokens ++ [.number ops.zero] ++ [.operator c]
         else tokens ++ [.operator c]) := by
  rw [tokenizeLoop_cons ops fuel c rest tokens hfuel]
  have h3 : isWhitespace c = false ∧ isDigitOrDot c = false ∧ isLetter c = false := by
    rcases isOperatorChar_cases hc with rfl | rfl | rfl | rfl | rfl <;> decide
  simp only [tokenizeStep, h3.1, h3.2.1, h3.2.2, hc, tokenizeOperator, Bool.false_eq_true,
    if_false, if_true]
  split <;> rfl

/-- The parenthesis branch: one Paren token. -/
theorem tokenizeLoop_paren {α : Type} (ops : NumberOps α) (fuel : Nat) (c : Char)
    (rest : List Char) (tokens : List (Token α)) (hc : c = '(' ∨ c = ')')
    (hfuel : rest.length + 1 ≤ fuel) :
    tokenizeLoop ops fuel (c :: rest) tokens =
      tokenizeLoop ops fuel rest (tokens ++ [.paren c]) := by
  rw [tokenizeLoop_cons ops fuel c rest tokens hfuel]
  have h4 : isWhitespace c = false ∧ isDigitOrDot c = false ∧ isLetter c = false ∧
      isOperatorChar c = false := by
    rcases hc with rfl | rfl <;> decide
  simp only [tokenizeStep, h4.1, h4.2.1, h4.2.2.1, h4.2.2.2, hc, Bool.false_eq_true,
    if_false, if_true, Result.bind]

theorem isUnaryMinus_of_ne {α : Type} (c : Char) (tokens : List (Token α)) (h : c ≠ '-') :
    isUnaryMinus c tokens = false := by
  simp [isUnaryMinus, h]

theorem isUnaryMinus_nil {α : Type} : isUnaryMinus '-' ([] : List (Token α)) = true := rfl

theorem isUnaryMinus_concat {α : Type} (tokens : List (Token α)) (prev : Token α) :
    isUnaryMinus '-' (tokens ++ [prev]) =
      match prev with
      | .operator _ => true
      | .paren value => value == '('
      | .function _ => true
      | _ => false := by
  simp only [isUnaryMinus, List.getLast?_append, List.getLast?_singleton]
  cases prev <;> simp

theorem tokenizeFrom_nil {α : Type} (ops : NumberOps α) (tokens : List (Token α)) :
    tokenizeFrom ops [] tokens = .ok tokens := rfl

theorem tokenizeFrom_number {α : Type} (ops : NumberOps α) (text rest : List Char)
    (tokens : List (Token α)) (htext : numericRun text = true)
    (hend : endsNumber text rest = true) :
    tokenizeFrom ops (text ++ rest) tokens =
      tokenizeFrom ops rest (tokens ++ [.number (ops.parse (String.mk text))]) := by
  unfold tokenizeFrom
  rw [tokenizeLoop_number ops _ text rest tokens htext hend (Nat.le_refl _)]
  exact tokenizeLoop_fuel_eq ops rest.length rest _ _ _ (Nat.le_refl _)
    (by simp) (Nat.le_refl _)

theorem tokenizeFrom_operator {α : Type} (ops : NumberOps α) (c : Char) (rest : List Char)
    (tokens : List (Token α)) (hc : isOperatorChar c = true) :
    tokenizeFrom ops (c :: rest) tokens =
      tokenizeFrom ops rest
        (if isUnaryMinus c tokens then tokens ++ [.number ops.zero] ++ [.operator c]
         else tokens ++ [.operator c]) := by
  unfold tokenizeFrom
  rw [List.length_cons, tokenizeLoop_operator ops _ c rest tokens hc (Nat.le_refl _)]
  exact tokenizeLoop_fuel_eq ops rest.length rest _ _ _ (Nat.le_refl _)
    (by simp) (Nat.le_refl _)

theorem tokenizeFrom_paren {α : Type} (ops : NumberOps α) (c : Char) (rest : List Char)
    (tokens : List (Token α)) (hc : c = '(' ∨ c = ')') :
    tokenizeFrom ops (c :: rest) tokens = tokenizeFrom ops rest (tokens ++ [.paren c]) := by
  unfold tokenizeFrom
  rw [List.length_cons, tokenizeLoop_paren ops _ c rest tokens hc (Nat.le_refl _)]
  exact tokenizeLoop_fuel_eq ops rest.length rest _ _ _ (Nat.le_refl _)
    (by simp) (Nat.le_refl _)

theorem evaluate_of_tokenize {α : Type} (ops : NumberOps α) (scope : Scope α)
    (expression : String) (tokens : List (Token α))
    (h : tokenize ops expression = .ok tokens) :
    evaluate ops scope expression = (toRpn ops tokens).bind (evaluateRpn ops scope) := by
  simp only [evaluate, h, Result.bind]

theorem applyOperator_add {α : Type} (ops : NumberOps α) (a b : α) :
    applyOperator ops '+' a b = validate ops "Invalid mathematical result." (ops.add a b) := rfl

theorem applyOperator_sub {α : Type} (ops : NumberOps α) (a b : α) :
    applyOperator ops '-' a b = validate ops "Invalid mathematical result." (ops.sub a b) := rfl

theorem applyOperator_mul {α : Type} (ops : NumberOps α) (a b : α) :
    applyOperator ops '*' a b = validate ops "Invalid mathematical result." (ops.mul a b) := rfl

theorem applyOperator_pow {α : Type} (ops : NumberOps α) (a b : α) :
    applyOperator ops '^' a b = validate ops "Invalid mathematical result." (ops.pow a b) := rfl

/-- Evaluation of the postfix sequence `x y z op₁ op₂`: the inner operator is
applied to `y, z` and the outer one to `x` and that result. -/
theorem evaluateRpn_right {α : Type} (ops : NumberOps α) (scope : Scope α) (x y z : α)
    (op₁ op₂ : Char) :
    evaluateRpn ops scope
        [.number x, .number y, .number z, .operator op₁, .operator op₂] =
      (applyOperator ops op₁ y z).bind fun r => applyOperator ops op₂ x r := by
  simp only [evaluateRpn, evaluateRpnLoop, evaluateRpnStep]
  cases applyOperator ops op₁ y z with
  | fail e => rfl
  | ok r =>
    simp only [Result.bind]
    cases applyOperator ops op₂ x r <;> rfl

/-- Evaluation of the postfix sequence `x y op₁ z op₂`: the first operator is
applied to `x, y` and the second to that result and `z`. -/
theorem evaluateRpn_left {α : Type} (ops : NumberOps α) (scope : Scope α) (x y z : α)
    (op₁ op₂ : Char) :
    evaluateRpn ops scope
        [.number x, .number y, .operator op₁, .number z, .operator op₂] =
      (applyOperator ops op₁ x y).bind fun r => applyOperator ops op₂ r z := by
  simp only [evaluateRpn, evaluateRpnLoop, evaluateRpnStep]
  cases applyOperator ops op₁ x y with
  | fail e => rfl
  | ok r =>
    simp only [Result.bind]
    cases applyOperator ops op₂ r z <;> rfl

theorem endsNumber_of_head {text : List Char} (c : Char) (rest : List Char)
    (h : isDigitOrDot c = false) : endsNumber text (c :: rest) = true := by
  simp only [isDigitOrDot, Bool.or_eq_false_iff, beq_eq_false_iff_ne, ne_eq] at h
  simp [endsNumber, h.1, h.2]

theorem tokenize_eq {α : Type} (ops : NumberOps α) (expression : String) :
    tokenize ops expression = tokenizeFrom ops expression.toList [] := rfl

/-- Tokens of `a+b*c`. -/
theorem tokenize_add_mul {α : Type} (ops : NumberOps α) (a b c : String)
    (ha : isNumericLiteral a = true) (hb : isNumericLiteral b = true)
    (hc : isNumericLiteral c = true) :
    tokenize ops (a ++ "+" ++ b ++ "*" ++ c) =
      .ok [.number (ops.parse a), .operator '+', .number (ops.parse b), .operator '*',
        .number (ops.parse c)] := by
  have hl : (a ++ "+" ++ b ++ "*" ++ c).toList =
      a.toList ++ ('+' :: (b.toList ++ ('*' :: (c.toList ++ [])))) := by
    simp [String.toList]
  rw [tokenize_eq, hl,
    tokenizeFrom_number ops _ _ _ ha (endsNumber_of_head _ _ (by decide)),
    tokenizeFrom_operator ops _ _ _ (by decide),
    isUnaryMinus_of_ne _ _ (by decide), if_neg (by decide),
    tokenizeFrom_number ops _ _ _ hb (endsNumber_of_head _ _ (by decide)),
    tokenizeFrom_operator ops _ _ _ (by decide),
    isUnaryMinus_of_ne _ _ (by decide), if_neg (by decide),
    tokenizeFrom_number ops _ [] _ hc rfl, tokenizeFrom_nil]
  rfl

/-- Tokens of `(a+b)*c`. -/
theorem tokenize_paren_add_mul {α : Type} (ops : NumberOps α) (a b c : String)
    (ha : isNumericLiteral a = true) (hb : isNumericLiteral b = true)
    (hc : isNumericLiteral c = true) :
    tokenize ops ("(" ++ a ++ "+" ++ b ++ ")*" ++ c) =
      .ok [.paren '(', .number (ops.parse a), .operator '+', .number (ops.parse b),
        .paren ')', .operator '*', .number (ops.parse c)] := by
  have hl : ("(" ++ a ++ "+" ++ b ++ ")*" ++ c).toList =
      '(' :: (a.toList ++ ('+' :: (b.toList ++ (')' :: '*' :: (c.toList ++ []))))) := by
    simp [String.toList]
  rw [tokenize_eq, hl,
    tokenizeFrom_paren ops _ _ _ (Or.inl rfl),
    tokenizeFrom_number ops _ _ _ ha (endsNumber_of_head _ _ (by decide)),
    tokenizeFrom_operator ops _ _ _ (by decide),
    isUnaryMinus_of_ne _ _ (by decide), if_neg (by decide),
    tokenizeFrom_number ops _ _ _ hb (endsNumber_of_head _ _ (by decide)),
    tokenizeFrom_paren ops _ _ _ (Or.inr rfl),
    tokenizeFrom_operator ops _ _ _ (by decide),
    isUnaryMinus_of_ne _ _ (by decide), if_neg (by decide),
    tokenizeFrom_number ops _ [] _ hc rfl, tokenizeFrom_nil]
  rfl

/-- C1. Operator precedence.  For all numeric literals `a`, `b`, `c` the pipeline
`tokenize`, `toRpn`, `evaluateRpn` evaluates the text `a+b*c` as `a + (b*c)` and
the text `(a+b)*c` as `(a+b)*c`, each operator result passing through the
evaluator's finiteness check; in exact arithmetic `2+3*4` gives 14 and
`(2+3)*4` gives 20. -/
theorem C1_precedence {α : Type} (ops : NumberOps α) (scope : Scope α) (a b c : String)
    (ha : isNumericLiteral a = true) (hb : isNumericLiteral b = true)
    (hc : isNumericLiteral c = true) :
    evaluate ops scope (a ++ "+" ++ b ++ "*" ++ c) =
        ((validate ops "Invalid mathematical result."
            (ops.mul (ops.parse b) (ops.parse c))).bind fun product =>
          validate ops "Invalid mathematical result." (ops.add (ops.parse a) product)) ∧
    evaluate ops scope ("(" ++ a ++ "+" ++ b ++ ")*" ++ c) =
        ((validate ops "Invalid mathematical result."
            (ops.add (ops.parse a) (ops.parse b))).bind fun sum =>
          validate ops "Invalid mathematical result." (ops.mul sum (ops.parse c))) ∧
    (∀ m : MathFunctions, evaluate (exactOps m) [] "2+3*4" = .ok (some 14)) ∧
    (∀ m : MathFunctions, evaluate (exactOps m) [] "(2+3)*4" = .ok (some 20)) := by
  refine ⟨?_, ?_, ?_, ?_⟩
  · rw [evaluate_of_tokenize ops scope _ _ (tokenize_add_mul ops a b c ha hb hc)]
    exact evaluateRpn_right ops scope _ _ _ '*' '+'
  · rw [evaluate_of_tokenize ops scope _ _ (tokenize_paren_add_mul ops a b c ha hb hc)]
    exact evaluateRpn_left ops scope _ _ _ '+' '*'
  · intro m; with_unfolding_all rfl
  · intro m; with_unfolding_all rfl

theorem C1_precedence_witness :
    evaluate (exactOps noMathFunctions) [] ("2" ++ "+" ++ "3" ++ "*" ++ "4") =
      ((validate (exactOps noMathFunctions) "Invalid mathematical result."
          ((exactOps noMathFunctions).mul ((exactOps noMathFunctions).parse "3")
            ((exactOps noMathFunctions).parse "4"))).bind fun product =>
        validate (exactOps noMathFunctions) "Invalid mathematical result."
          ((exactOps noMathFunctions).add ((exactOps noMathFunctions).parse "2") product)) :=
  (C1_precedence (exactOps noMathFunctions) [] "2" "3" "4" (by decide) (by decide)
    (by decide)).1

/-- Tokens of `a*-b`: the `-` follows an operator, so the synthetic `0` is
inserted before it. -/
theorem tokenize_mul_neg {α : Type} (ops : NumberOps α) (a b : String)
    (ha : isNumericLiteral a = true) (hb : isNumericLiteral b = true) :
    tokenize ops (a ++ "*-" ++ b) =
      .ok [.number (ops.parse a), .operator '*', .number ops.zero, .operator '-',
        .number (ops.parse b)] := by
  have hl : (a ++ "*-" ++ b).toList = a.toList ++ ('*' :: '-' :: (b.toList ++ [])) := by
    simp [String.toList]
  rw [tokenize_eq, hl,
    tokenizeFrom_number ops _ _ _ ha (endsNumber_of_head _ _ (by decide)),
    tokenizeFrom_operator ops _ _ _ (by decide),
    isUnaryMinus_of_ne _ _ (by decide), if_neg (by decide),
    tokenizeFrom_operator ops _ _ _ (by decide),
    isUnaryMinus_concat, if_pos rfl,
    tokenizeFrom_number ops _ [] _ hb rfl, tokenizeFrom_nil]
  rfl

/-- What the pipeline computes for `a*-b`, for all numeric literals: the
conversion pops `*` when the `-` arrives, giving the postfix `a 0 * b -`, that
is `(a*0) - b`. -/
theorem evaluate_mul_neg {α : Type} (ops : NumberOps α) (scope : Scope α) (a b : String)
    (ha : isNumericLiteral a = true) (hb : isNumericLiteral b = true) :
    toRpn ops [.number (ops.parse a), .operator '*', .number ops.zero, .operator '-',
        .number (ops.parse b)] =
      .ok [.number (ops.parse a), .number ops.zero, .operator '*', .number (ops.parse b),
        .operator '-'] ∧
    evaluate ops scope (a ++ "*-" ++ b) =
      ((validate ops "Invalid mathematical result." (ops.mul (ops.parse a) ops.zero)).bind
        fun product =>
          validate ops "Invalid mathematical result." (ops.sub product (ops.parse b))) := by
  refine ⟨rfl, ?_⟩
  rw [evaluate_of_tokenize ops scope _ _ (tokenize_mul_neg ops a b ha hb)]
  exact evaluateRpn_left ops scope _ _ _ '*' '-'

/-- C2. The code at the input `3*-2`: the tokens are `3 * 0 - 2`, the postfix
form is `3 0 * 2 -`, and the value is `(3*0) - 2 = -2`, not `3 * (-2) = -6`. -/
theorem C2_unary_minus_after_operator :
    tokenize (exactOps noMathFunctions) "3*-2" =
      .ok [.number (some 3), .operator '*', .number (some 0), .operator '-',
        .number (some 2)] ∧
    toRpn (exactOps noMathFunctions)
        [.number (some 3), .operator '*', .number (some 0), .operator '-', .number (some 2)] =
      .ok [.number (some 3), .number (some 0), .operator '*', .number (some 2),
        .operator '-'] ∧
    evaluate (exactOps noMathFunctions) [] "3*-2" = .ok (some (-2)) ∧
    evaluate (exactOps noMathFunctions) [] "3*-2" ≠ .ok (some (-6)) := by
  refine ⟨?_, rfl, ?_, ?_⟩ <;> with_unfolding_all decide

/-- Tokens of `-a+b`: the leading `-` is unary, so the synthetic `0` comes first. -/
theorem tokenize_neg_add {α : Type} (ops : NumberOps α) (a b : String)
    (ha : isNumericLiteral a = true) (hb : isNumericLiteral b = true) :
    tokenize ops ("-" ++ a ++ "+" ++ b) =
      .ok [.number ops.zero, .operator '-', .number (ops.parse a), .operator '+',
        .number (ops.parse b)] := by
  have hl : ("-" ++ a ++ "+" ++ b).toList = '-' :: (a.toList ++ ('+' :: (b.toList ++ []))) := by
    simp [String.toList]
  rw [tokenize_eq, hl,
    tokenizeFrom_operator ops _ _ _ (by decide),
    isUnaryMinus_nil, if_pos rfl,
    tokenizeFrom_number ops _ _ _ ha (endsNumber_of_head _ _ (by decide)),
    tokenizeFrom_operator ops _ _ _ (by decide),
    isUnaryMinus_of_ne _ _ (by decide), if_neg (by decide),
    tokenizeFrom_number ops _ [] _ hb rfl, tokenizeFrom_nil]
  rfl

/-- C3. Leading unary minus.  For all numeric literals `a`, `b` the text `-a+b`
evaluates as `(0 - a) + b`, the negation being the subtraction from the
synthetic `0`, each operator result passing through the finiteness check; in
exact arithmetic `-5+3` gives -2. -/
theorem C3_leading_unary_minus {α : Type} (ops : NumberOps α) (scope : Scope α) (a b : String)
    (ha : isNumericLiteral a = true) (hb : isNumericLiteral b = true) :
    evaluate ops scope ("-" ++ a ++ "+" ++ b) =
        ((validate ops "Invalid mathematical result." (ops.sub ops.zero (ops.parse a))).bind
          fun negated =>
            validate ops "Invalid mathematical result." (ops.add negated (ops.parse b))) ∧
    (∀ m : MathFunctions, evaluate (exactOps m) [] "-5+3" = .ok (some (-2))) := by
  refine ⟨?_, ?_⟩
  · rw [evaluate_of_tokenize ops scope _ _ (tokenize_neg_add ops a b ha hb)]
    exact evaluateRpn_left ops scope _ _ _ '-' '+'
  · intro m; with_unfolding_all rfl

theorem C3_leading_unary_minus_witness :
    evaluate (exactOps noMathFunctions) [] ("-" ++ "5" ++ "+" ++ "3") =
      ((validate (exactOps noMathFunctions) "Invalid mathematical result."
          ((exactOps noMathFunctions).sub (exactOps noMathFunctions).zero
            ((exactOps noMathFunctions).parse "5"))).bind fun negated =>
        validate (exactOps noMathFunctions) "Invalid mathematical result."
          ((exactOps noMathFunctions).add negated ((exactOps noMathFunctions).parse "3"))) :=
  (C3_leading_unary_minus (exactOps noMathFunctions) [] "5" "3" (by decide) (by decide)).1

/-- Tokens of `a^b^c`. -/
theorem tokenize_pow_pow {α : Type} (ops : NumberOps α) (a b c : String)
    (ha : isNumericLiteral a = true) (hb : isNumericLiteral b = true)
    (hc : isNumericLiteral c = true) :
    tokenize ops (a ++ "^" ++ b ++ "^" ++ c) =
      .ok [.number (ops.parse a), .operator '^', .number (ops.parse b), .operator '^',
        .number (ops.parse c)] := by
  have hl : (a ++ "^" ++ b ++ "^" ++ c).toList =
      a.toList ++ ('^' :: (b.toList ++ ('^' :: (c.toList ++ [])))) := by
    simp [String.toList]
  rw [tokenize_eq, hl,
    tokenizeFrom_number ops _ _ _ ha (endsNumber_of_head _ _ (by decide)),
    tokenizeFrom_operator ops _ _ _ (by decide),
    isUnaryMinus_of_ne _ _ (by decide), if_neg (by decide),
    tokenizeFrom_number ops _ _ _ hb (endsNumber_of_head _ _ (by decide)),
    tokenizeFrom_operator ops _ _ _ (by decide),
    isUnaryMinus_of_ne _ _ (by decide), if_neg (by decide),
    tokenizeFrom_number ops _ [] _ hc rfl, tokenizeFrom_nil]
  rfl

/-- C4. Right-associativity of `^`.  For all numeric literals `a`, `b`, `c`,
`toRpn` applied to the tokens of `a^b^c` yields the postfix sequence
`a b c ^ ^`, so the expression evaluates as `a^(b^c)`; in exact arithmetic
`2^3^2` gives 512, not 64. -/
theorem C4_power_right_assoc {α : Type} (ops : NumberOps α) (scope : Scope α) (a b c : String)
    (ha : isNumericLiteral a = true) (hb : isNumericLiteral b = true)
    (hc : isNumericLiteral c = true) :
    (tokenize ops (a ++ "^" ++ b ++ "^" ++ c)).bind (toRpn ops) =
        .ok [.number (ops.parse a), .number (ops.parse b), .number (ops.parse c),
          .operator '^', .operator '^'] ∧
    evaluate ops scope (a ++ "^" ++ b ++ "^" ++ c) =
        ((validate ops "Invalid mathematical result."
            (ops.pow (ops.parse b) (ops.parse c))).bind fun exponent =>
          validate ops "Invalid mathematical result." (ops.pow (ops.parse a) exponent)) ∧
    (∀ m : MathFunctions, evaluate (exactOps m) [] "2^3^2" = .ok (some 512)) ∧
    (∀ m : MathFunctions, evaluate (exactOps m) [] "2^3^2" ≠ .ok (some 64)) := by
  refine ⟨?_, ?_, ?_, ?_⟩
  · rw [tokenize_pow_pow ops a b c ha hb hc]; rfl
  · rw [evaluate_of_tokenize ops scope _ _ (tokenize_pow_pow ops a b c ha hb hc)]
    exact evaluateRpn_right ops scope _ _ _ '^' '^'
  · intro m; with_unfolding_all rfl
  · intro m
    have h : evaluate (exactOps m) [] "2^3^2" = .ok (some 512) := by with_unfolding_all rfl
    rw [h]
    intro hc
    injection hc with hc
    injection hc with hc
    norm_num at hc

theorem C4_power_right_assoc_witness :
    (tokenize (exactOps noMathFunctions) ("2" ++ "^" ++ "3" ++ "^" ++ "2")).bind
        (toRpn (exactOps noMathFunctions)) =
      .ok [.number ((exactOps noMathFunctions).parse "2"),
        .number ((exactOps noMathFunctions).parse "3"),
        .number ((exactOps noMathFunctions).parse "2"), .operator '^', .operator '^'] :=
  (C4_power_right_assoc (exactOps noMathFunctions) [] "2" "3" "2" (by decide) (by decide)
    (by decide)).1

/-- Tokens of `a/0`. -/
theorem tokenize_div_zero {α : Type} (ops : NumberOps α) (a : String)
    (ha : isNumericLiteral a = true) :
    tokenize ops (a ++ "/0") =
      .ok [.number (ops.parse a), .operator '/', .number (ops.parse "0")] := by
  have hl : (a ++ "/0").toList = a.toList ++ ('/' :: (['0'] ++ [])) := by
    simp [String.toList]
  rw [tokenize_eq, hl,
    tokenizeFrom_number ops _ _ _ ha (endsNumber_of_head _ _ (by decide)),
    tokenizeFrom_operator ops _ _ _ (by decide),
    isUnaryMinus_of_ne _ _ (by decide), if_neg (by decide),
    tokenizeFrom_number ops ['0'] [] _ (by decide) rfl, tokenizeFrom_nil]
  rfl

/-- C5. Division by zero.  The rule of `/` fails, with the message
"Division by zero is not allowed.", exactly when its right operand is zero; and
for every numeric literal `a` the text `a/0` fails with that message (the
literal `0` being zero for the arithmetic in use). -/
theorem C5_division_by_zero {α : Type} (ops : NumberOps α) (scope : Scope α) (a : String)
    (ha : isNumericLiteral a = true) (hzero : ops.isZero (ops.parse "0") = true) :
    (∃ spec, OPERATORS ops '/' = some spec ∧
      (∀ x y, (∃ e, spec.fn x y = .fail e) ↔ ops.isZero y = true) ∧
      (∀ x y, spec.fn x y = .fail (.error "Division by zero is not allowed.") ↔
        ops.isZero y = true)) ∧
    evaluate ops scope (a ++ "/0") = .fail (.error "Division by zero is not allowed.") := by
  refine ⟨⟨_, rfl, ?_, ?_⟩, ?_⟩
  · intro x y
    by_cases hy : ops.isZero y = true
    · simp [hy, raise]
    · simp [hy]
  · intro x y
    by_cases hy : ops.isZero y = true
    · simp [hy, raise]
    · simp [hy]
  · rw [evaluate_of_tokenize ops scope _ _ (tokenize_div_zero ops a ha)]
    simp [toRpn, toRpnLoop, toRpnStep, popOperators, drainStack, Result.bind, evaluateRpn,
      evaluateRpnLoop, evaluateRpnStep, applyOperator, OPERATORS, hzero, raise]

theorem C5_division_by_zero_witness :
    evaluate (exactOps noMathFunctions) [] ("5" ++ "/0") =
      .fail (.error "Division by zero is not allowed.") :=
  (C5_division_by_zero (exactOps noMathFunctions) [] "5" (by decide)
    (by with_unfolding_all decide)).2


/-! ### Identifiers and the lookup `FUNCTIONS[lowered]` -/

theorem toLower_of_upper (c : Char) (h : 65 ≤ c.toNat ∧ c.toNat ≤ 90) :
    (Char.toLower c).toNat = c.toNat + 32 := by
  obtain ⟨h1, h2⟩ := h
  have hc : c = Char.ofNat c.toNat := (Char.ofNat_toNat c).symm
  generalize c.toNat = n at hc h1 h2
  subst hc
  interval_cases n <;> decide

theorem toLower_of_not_upper (c : Char) (h : ¬ (65 ≤ c.toNat ∧ c.toNat ≤ 90)) :
    Char.toLower c = c := by
  unfold Char.toLower
  simp only [ge_iff_le]
  rw [if_neg h]

/-- A lower-cased character is never an upper-case letter. -/
theorem toLower_not_upper (c : Char) :
    ¬ (65 ≤ (Char.toLower c).toNat ∧ (Char.toLower c).toNat ≤ 90) := by
  by_cases h : 65 ≤ c.toNat ∧ c.toNat ≤ 90
  · rw [toLower_of_upper c h]; omega
  · rw [toLower_of_not_upper c h]; exact h

/-- A lower-cased letter is a lower-case letter. -/
theorem toLower_of_isLetter (c : Char) (h : isLetter c = true) :
    97 ≤ (Char.toLower c).toNat ∧ (Char.toLower c).toNat ≤ 122 := by
  rcases isLetter_bounds h with h | h
  · rw [toLower_of_not_upper c (by omega)]; exact h
  · rw [toLower_of_upper c h]; omega

theorem toLowerCase_ne_of_upper (text : List Char) (name : String)
    (h : ∃ c ∈ name.toList, 65 ≤ c.toNat ∧ c.toNat ≤ 90) : toLowerCase text ≠ name := by
  intro heq
  obtain ⟨c, hc, hupper⟩ := h
  rw [← heq] at hc
  simp only [toLowerCase, String.toList, List.mem_map] at hc
  obtain ⟨x, _, rfl⟩ := hc
  exact toLower_not_upper x hupper

theorem toLowerCase_ne_of_underscore (text : List Char) (name : String)
    (htext : identifierRun text = true) (h : name.toList.head? = some '_') :
    toLowerCase text ≠ name := by
  intro heq
  rw [← heq] at h
  cases text with
  | nil => simp [identifierRun] at htext
  | cons first more =>
    simp only [identifierRun, Bool.and_eq_true] at htext
    have hb := toLower_of_isLetter first htext.1
    simp only [toLowerCase, String.toList, List.map_cons, List.head?_cons, Option.some.injEq] at h
    rw [h] at hb
    revert hb
    decide

/-- On the lower-cased text of an identifier the property read
`FUNCTIONS[lowered]` is truthy for the four keys of the table and for the
inherited `constructor`, and for nothing else. -/
theorem functionsGet_isSome_iff {α : Type} (ops : NumberOps α) (text : List Char)
    (htext : identifierRun text = true) :
    (functionsGet ops (toLowerCase text)).isSome = true ↔
      toLowerCase text ∈ functionNames ∨ toLowerCase text = "constructor" := by
  have u : ∀ (c : Char) (name : String), c ∈ name.toList → (65 ≤ c.toNat ∧ c.toNat ≤ 90) →
      toLowerCase text ≠ name :=
    fun c name hc hu => toLowerCase_ne_of_upper text name ⟨c, hc, hu⟩
  have n1 := u 'O' "hasOwnProperty" (by decide) (by decide)
  have n2 := u 'P' "isPrototypeOf" (by decide) (by decide)
  have n3 := u 'I' "propertyIsEnumerable" (by decide) (by decide)
  have n4 := u 'L' "toLocaleString" (by decide) (by decide)
  have n5 := u 'S' "toString" (by decide) (by decide)
  have n6 := u 'O' "valueOf" (by decide) (by decide)
  have n7 := u 'G' "__lookupGetter__" (by decide) (by decide)
  have n8 := u 'S' "__lookupSetter__" (by decide) (by decide)
  have n9 := u 'G' "__defineGetter__" (by decide) (by decide)
  have n10 := u 'S' "__defineSetter__" (by decide) (by decide)
  have n11 := toLowerCase_ne_of_underscore text "__proto__" htext (by decide)
  generalize toLowerCase text = lowered at *
  by_cases h1 : lowered = "sqrt"
  · subst h1; exact ⟨fun _ => Or.inl (by decide), fun _ => rfl⟩
  by_cases h2 : lowered = "sin"
  · subst h2; exact ⟨fun _ => Or.inl (by decide), fun _ => rfl⟩
  by_cases h3 : lowered = "cos"
  · subst h3; exact ⟨fun _ => Or.inl (by decide), fun _ => rfl⟩
  by_cases h4 : lowered = "tan"
  · subst h4; exact ⟨fun _ => Or.inl (by decide), fun _ => rfl⟩
  by_cases h5 : lowered = "constructor"
  · subst h5; exact ⟨fun _ => Or.inr rfl, fun _ => rfl⟩
  have hlookup : (FUNCTIONS ops).lookup lowered = none := by
    simp only [FUNCTIONS, List.lookup, beq_eq_false_iff_ne.mpr h1, beq_eq_false_iff_ne.mpr h2,
      beq_eq_false_iff_ne.mpr h3, beq_eq_false_iff_ne.mpr h4]
  simp [functionsGet, hlookup, inheritedNonNumeric, inheritedThrowing, functionNames,
    h1, h2, h3, h4, h5, n1, n2, n3, n4, n5, n6, n7, n8, n9, n10, n11]


/-- The identifier branch on a name followed by input that ends it: one token
carrying the lower-cased name, a Function token when `FUNCTIONS[lowered]` is
truthy and an Identifier token otherwise. -/
theorem tokenizeLoop_identifier {α : Type} (ops : NumberOps α) (fuel : Nat)
    (text rest : List Char) (tokens : List (Token α)) (htext : identifierRun text = true)
    (hend : endsIdentifier rest = true) (hfuel : (text ++ rest).length ≤ fuel) :
    tokenizeLoop ops fuel (text ++ rest) tokens =
      tokenizeLoop ops fuel rest
        (tokens ++ [if (functionsGet ops (toLowerCase text)).isSome
          then .function (toLowerCase text) else .identifier (toLowerCase text)]) := by
  cases text with
  | nil => simp [identifierRun] at htext
  | cons first more =>
    simp only [identifierRun, Bool.and_eq_true, List.all_eq_true] at htext
    have hscan : scanIdentifier [first] (more ++ rest) = (first :: more, rest) := by
      simpa using scanIdentifier_run more [first] rest htext.2 hend
    rw [List.cons_append, tokenizeLoop_cons ops fuel first (more ++ rest) tokens
      (by simpa using hfuel)]
    simp only [tokenizeStep, isWhitespace_of_isLetter htext.1, isDigitOrDot_of_isLetter htext.1,
      htext.1, tokenizeIdentifier, hscan, Bool.false_eq_true, if_false, if_true]
    split <;> rfl

theorem tokenizeFrom_identifier {α : Type} (ops : NumberOps α) (text rest : List Char)
    (tokens : List (Token α)) (htext : identifierRun text = true)
    (hend : endsIdentifier rest = true) :
    tokenizeFrom ops (text ++ rest) tokens =
      tokenizeFrom ops rest
        (tokens ++ [if (functionsGet ops (toLowerCase text)).isSome
          then .function (toLowerCase text) else .identifier (toLowerCase text)]) := by
  unfold tokenizeFrom
  rw [tokenizeLoop_identifier ops _ text rest tokens htext hend (Nat.le_refl _)]
  exact tokenizeLoop_fuel_eq ops rest.length rest _ _ _ (Nat.le_refl _)
    (by simp) (Nat.le_refl _)

/-- Tokens of `n+1` for an identifier `n` that the lookup `FUNCTIONS[lowered]`
does not find. -/
theorem tokenize_identifier_plus_one {α : Type} (ops : NumberOps α) (n : String)
    (hn : isIdentifierName n = true)
    (hfn : (functionsGet ops (toLowerCase n.toList)).isSome = false) :
    tokenize ops (n ++ "+1") =
      .ok [.identifier (toLowerCase n.toList), .operator '+', .number (ops.parse "1")] := by
  have hl : (n ++ "+1").toList = n.toList ++ ('+' :: (['1'] ++ [])) := by
    simp [String.toList]
  rw [tokenize_eq, hl, tokenizeFrom_identifier ops _ _ _ hn (by decide), hfn,
    if_neg (by decide),
    tokenizeFrom_operator ops _ _ _ (by decide),
    isUnaryMinus_of_ne _ _ (by decide), if_neg (by decide),
    tokenizeFrom_number ops ['1'] [] _ (by decide) rfl, tokenizeFrom_nil]
  rfl

/-- C6 as stated fails: `sqrt` is an identifier name and not a key of the empty
scope, yet `sqrt+1` does not fail with the unknown-variable message; the name
becomes a Function token and the evaluation fails for lack of operands. -/
theorem C6_function_name_counterexample :
    isIdentifierName "sqrt" = true ∧
    (([] : Scope (Option ℚ)).lookup "sqrt" = none) ∧
    evaluate (exactOps noMathFunctions) [] "sqrt+1" =
      .fail (.error "Incomplete expression: missing values.") ∧
    evaluate (exactOps noMathFunctions) [] "sqrt+1" ≠
      .fail (.error "Unknown variable or constant \"sqrt\".") := by
  refine ⟨by decide, rfl, ?_, ?_⟩ <;> with_unfolding_all decide

/-- C6 (amended). Undefined identifier.  For every scope and every identifier
name `n` whose lower-cased text is not one of the function names `sqrt`, `sin`,
`cos`, `tan`, is not `constructor`, and is not a key of the scope, evaluating
`n+1` fails with the message `Unknown variable or constant "n".` carrying the
lower-cased name. -/
theorem C6_unknown_identifier {α : Type} (ops : NumberOps α) (scope : Scope α) (n : String)
    (hn : isIdentifierName n = true)
    (hfunction : toLowerCase n.toList ∉ functionNames)
    (hinherited : toLowerCase n.toList ≠ "constructor")
    (hscope : scope.lookup (toLowerCase n.toList) = none) :
    evaluate ops scope (n ++ "+1") =
      .fail (.error ("Unknown variable or constant \"" ++ toLowerCase n.toList ++ "\".")) := by
  have hfn : (functionsGet ops (toLowerCase n.toList)).isSome = false := by
    rw [Bool.eq_false_iff]
    intro h
    rcases (functionsGet_isSome_iff ops n.toList hn).mp h with h | h
    · exact hfunction h
    · exact hinherited h
  rw [evaluate_of_tokenize ops scope _ _ (tokenize_identifier_plus_one ops n hn hfn)]
  simp only [toRpn, toRpnLoop, toRpnStep, popOperators, drainStack, Result.bind, evaluateRpn,
    evaluateRpnLoop, evaluateRpnStep, hscope, raise, List.nil_append, List.cons_append]

theorem C6_unknown_identifier_witness :
    evaluate (exactOps noMathFunctions) [] ("x" ++ "+1") =
      .fail (.error ("Unknown variable or constant \"" ++ toLowerCase "x".toList ++ "\".")) :=
  C6_unknown_identifier (exactOps noMathFunctions) [] "x" (by decide) (by decide) (by decide)
    rfl

/-- C10. The code at the input `constructor`: the text is an identifier whose
lower-cased form is none of the four function names, yet the property read
`FUNCTIONS[lowered]` finds the inherited `Object.prototype.constructor` and the
tokenizer emits a Function token instead of an Identifier token. -/
theorem C10_constructor_is_function_token {α : Type} (ops : NumberOps α) :
    isIdentifierName "constructor" = true ∧
    toLowerCase "constructor".toList = "constructor" ∧
    "constructor" ∉ functionNames ∧
    (FUNCTIONS ops).lookup "constructor" = none ∧
    tokenize ops "constructor" = .ok [.function "constructor"] ∧
    tokenize ops "constructor" ≠ .ok [.identifier "constructor"] := by
  refine ⟨by decide, by decide, by decide, rfl, rfl, ?_⟩
  intro h
  have h2 : tokenize ops "constructor" = .ok [.function "constructor"] := rfl
  rw [h2] at h
  injection h with h
  injection h with h
  cases h

/-- Apart from `constructor`, the tokenizer emits a Function token for an
identifier exactly when its lower-cased text is one of `sqrt`, `sin`, `cos`,
`tan`, and an Identifier token carrying the lower-cased text otherwise. -/
theorem tokenizeFrom_identifier_kind {α : Type} (ops : NumberOps α) (text rest : List Char)
    (tokens : List (Token α)) (htext : identifierRun text = true)
    (hend : endsIdentifier rest = true) (hne : toLowerCase text ≠ "constructor") :
    tokenizeFrom ops (text ++ rest) tokens =
      tokenizeFrom ops rest
        (tokens ++ [if toLowerCase text ∈ functionNames
          then .function (toLowerCase text) else .identifier (toLowerCase text)]) := by
  rw [tokenizeFrom_identifier ops text rest tokens htext hend]
  by_cases h : toLowerCase text ∈ functionNames
  · rw [if_pos h, if_pos ((functionsGet_isSome_iff ops text htext).mpr (Or.inl h))]
  · rw [if_neg h, if_neg]
    intro hs
    rcases (functionsGet_isSome_iff ops text htext).mp hs with h' | h'
    · exact h h'
    · exact hne h'

/-- C9. The code at the input `constructor(1)`: the tokenizer emits the Function
token `constructor`, a name with no entry in the table `FUNCTIONS`; the token
reaches `evaluateRpn`, where the call of the inherited property gives a value
that is not a number and the evaluation fails with "Invalid function result.". -/
theorem C9_function_token_without_entry {α : Type} (ops : NumberOps α) (scope : Scope α) :
    tokenize ops "constructor(1)" =
      .ok [.function "constructor", .paren '(', .number (ops.parse "1"), .paren ')'] ∧
    toRpn ops [.function "constructor", .paren '(', .number (ops.parse "1"), .paren ')'] =
      .ok [.number (ops.parse "1"), .function "constructor"] ∧
    (FUNCTIONS ops).lookup "constructor" = none ∧
    "constructor" ∉ functionNames ∧
    evaluate ops scope "constructor(1)" = .fail (.error "Invalid function result.") := by
  refine ⟨rfl, rfl, rfl, by decide, rfl⟩


/-! ### Parentheses in `toRpn` -/

theorem parenDepth_iff {α : Type} (tokens : List (Token α)) :
    ∀ d d' : Nat, parenDepth tokens d = some d' ↔
      (∀ pre, pre <+: tokens → pre.countP isCloseParen ≤ d + pre.countP isOpenParen) ∧
        d + tokens.countP isOpenParen = d' + tokens.countP isCloseParen := by
  induction tokens with
  | nil =>
    intro d d'
    simp only [parenDepth, Option.some.injEq, List.prefix_nil, List.countP_nil, Nat.add_zero]
    constructor
    · rintro rfl
      exact ⟨fun pre hpre => by subst hpre; simp, rfl⟩
    · exact fun h => h.2
  | cons t ts ih =>
    intro d d'
    have hexcl : ¬ (isOpenParen t = true ∧ isCloseParen t = true) := by
      cases t <;> simp [isOpenParen, isCloseParen]
      rintro rfl; decide
    simp only [parenDepth, List.prefix_cons_iff, List.countP_cons]
    by_cases ho : isOpenParen t = true
    · have hc : isCloseParen t = false := by
        rw [Bool.eq_false_iff]; exact fun hc => hexcl ⟨ho, hc⟩
      simp only [ho, hc, if_true, Bool.false_eq_true, if_false, ih (d + 1) d']
      constructor
      · rintro ⟨h1, h2⟩
        refine ⟨?_, by omega⟩
        rintro pre (rfl | ⟨p, rfl, hp⟩)
        · simp
        · have := h1 p hp
          simp only [List.countP_cons, ho, hc, if_true, Bool.false_eq_true, if_false]
          omega
      · rintro ⟨h1, h2⟩
        refine ⟨fun p hp => ?_, by omega⟩
        have := h1 (t :: p) (Or.inr ⟨p, rfl, hp⟩)
        simp only [List.countP_cons, ho, hc, if_true, Bool.false_eq_true, if_false] at this
        omega
    · by_cases hc : isCloseParen t = true
      · simp only [ho, hc, if_true, Bool.false_eq_true, if_false]
        by_cases hd : d = 0
        · subst hd
          simp only [if_true]
          constructor
          · intro h; cases h
          · rintro ⟨h1, _⟩
            have := h1 [t] (Or.inr ⟨[], rfl, List.nil_prefix⟩)
            simp [List.countP_cons, ho, hc] at this
        · simp only [if_neg hd, ih (d - 1) d']
          constructor
          · rintro ⟨h1, h2⟩
            refine ⟨?_, by omega⟩
            rintro pre (rfl | ⟨p, rfl, hp⟩)
            · simp
            · have := h1 p hp
              simp only [List.countP_cons, ho, hc, if_true, Bool.false_eq_true, if_false]
              omega
          · rintro ⟨h1, h2⟩
            refine ⟨fun p hp => ?_, by omega⟩
            have := h1 (t :: p) (Or.inr ⟨p, rfl, hp⟩)
            simp only [List.countP_cons, ho, hc, if_true, Bool.false_eq_true, if_false] at this
            omega
      · simp only [ho, hc, Bool.false_eq_true, if_false, ih d d']
        constructor
        · rintro ⟨h1, h2⟩
          refine ⟨?_, by omega⟩
          rintro pre (rfl | ⟨p, rfl, hp⟩)
          · simp
          · have := h1 p hp
            simp only [List.countP_cons, ho, hc, Bool.false_eq_true, if_false]
            omega
        · rintro ⟨h1, h2⟩
          refine ⟨fun p hp => ?_, by omega⟩
          have := h1 (t :: p) (Or.inr ⟨p, rfl, hp⟩)
          simp only [List.countP_cons, ho, hc, Bool.false_eq_true, if_false] at this
          omega

/-- Balance, as counted on prefixes, is the running depth returning to 0. -/
theorem parensBalanced_iff {α : Type} (tokens : List (Token α)) :
    parensBalanced tokens = true ↔ parenDepth tokens 0 = some 0 := by
  rw [parenDepth_iff]
  simp only [parensBalanced, Bool.and_eq_true, List.all_eq_true, List.mem_inits,
    decide_eq_true_eq, beq_iff_eq, Nat.zero_add]


theorem popOperators_shape {α : Type} (ops : NumberOps α) (currentOp : Char)
    (stack : List (Token α)) :
    ∀ (output o s : List (Token α)), popOperators ops currentOp output stack = .ok (o, s) →
      ∃ popped, stack = popped ++ s ∧ o = output ++ popped ∧
        ∀ t ∈ popped, ∃ op, t = .operator op := by
  induction stack with
  | nil =>
    intro output o s h
    simp only [popOperators, Result.ok.injEq, Prod.mk.injEq] at h
    exact ⟨[], by simp [h.2.symm], by simp [h.1.symm], by simp⟩
  | cons top stack ih =>
    intro output o s h
    cases top with
    | operator topOp =>
      simp only [popOperators] at h
      split at h
      · split at h
        · obtain ⟨popped, h1, h2, h3⟩ := ih _ _ _ h
          refine ⟨.operator topOp :: popped, by simp [h1], by simp [h2], ?_⟩
          intro t ht
          rcases List.mem_cons.mp ht with rfl | ht
          · exact ⟨topOp, rfl⟩
          · exact h3 t ht
        · simp only [Result.ok.injEq, Prod.mk.injEq] at h
          exact ⟨[], by simp [h.2.symm], by simp [h.1.symm], by simp⟩
      · cases h
    | number _ | identifier _ | function _ | paren _ =>
      simp only [popOperators, Result.ok.injEq, Prod.mk.injEq] at h
      exact ⟨[], by simp [h.2.symm], by simp [h.1.symm], by simp⟩

theorem popOperators_known {α : Type} (ops : NumberOps α) (currentOp : Char)
    (hcur : (OPERATORS ops currentOp).isSome = true) (stack : List (Token α)) :
    ∀ (output : List (Token α)), operatorsKnown ops stack →
      ∃ o s, popOperators ops currentOp output stack = .ok (o, s) := by
  induction stack with
  | nil => intro output _; exact ⟨output, [], rfl⟩
  | cons top stack ih =>
    intro output hk
    have hk' : operatorsKnown ops stack := fun op h => hk op (List.mem_cons_of_mem _ h)
    cases top with
    | operator topOp =>
      have htop := hk topOp (List.mem_cons_self _ _)
      obtain ⟨topSpec, ht⟩ := Option.isSome_iff_exists.mp htop
      obtain ⟨curSpec, hc⟩ := Option.isSome_iff_exists.mp hcur
      simp only [popOperators, ht, hc]
      split
      · exact ih _ hk'
      · exact ⟨_, _, rfl⟩
    | number _ | identifier _ | function _ | paren _ => exact ⟨_, _, rfl⟩

theorem popUntilLeftParen_none {α : Type} (stack : List (Token α)) :
    ∀ (output : List (Token α)), stack.countP isOpenParen = 0 →
      popUntilLeftParen output stack = none := by
  induction stack with
  | nil => intro output _; rfl
  | cons top stack ih =>
    intro output h
    rw [List.countP_cons] at h
    have h1 : stack.countP isOpenParen = 0 := by omega
    have h2 : isOpenParen top = false := by
      cases hb : isOpenParen top
      · rfl
      · rw [hb] at h; simp at h
    cases top with
    | paren value =>
      have hv : value ≠ '(' := by simpa [isOpenParen] using h2
      simp only [popUntilLeftParen, if_neg hv]
      exact ih _ h1
    | number _ | identifier _ | function _ | operator _ =>
      simp only [popUntilLeftParen]
      exact ih _ h1

theorem popUntilLeftParen_shape {α : Type} (stack : List (Token α)) :
    ∀ (output o s : List (Token α)), popUntilLeftParen output stack = some (o, s) →
      ∃ popped, stack = popped ++ .paren '(' :: s ∧ o = output ++ popped ∧
        popped.countP isOpenParen = 0 := by
  induction stack with
  | nil => intro output o s h; cases h
  | cons top stack ih =>
    intro output o s h
    cases top with
    | paren value =>
      simp only [popUntilLeftParen] at h
      by_cases hv : value = '('
      · subst hv
        simp only [if_true, Option.some.injEq, Prod.mk.injEq] at h
        exact ⟨[], by simp [h.2], by simp [h.1.symm], rfl⟩
      · rw [if_neg hv] at h
        obtain ⟨popped, h1, h2, h3⟩ := ih _ _ _ h
        refine ⟨.paren value :: popped, by simp [h1], by simp [h2], ?_⟩
        rw [List.countP_cons, h3]
        simp [isOpenParen, hv]
    | number _ | identifier _ | function _ | operator _ =>
      simp only [popUntilLeftParen] at h
      obtain ⟨popped, h1, h2, h3⟩ := ih _ _ _ h
      refine ⟨_ :: popped, by rw [h1]; rfl, by rw [h2]; simp, ?_⟩
      rw [List.countP_cons, h3]
      simp [isOpenParen]

theorem popUntilLeftParen_some {α : Type} (stack : List (Token α)) :
    ∀ (output : List (Token α)), 0 < stack.countP isOpenParen →
      ∃ o s, popUntilLeftParen output stack = some (o, s) := by
  intro output h
  cases hp : popUntilLeftParen output stack with
  | some p => exact ⟨p.1, p.2, rfl⟩
  | none =>
    exfalso
    revert output
    induction stack with
    | nil => intro _ _; simp at h
    | cons top stack ih =>
      intro output hp
      cases top with
      | paren value =>
        simp only [popUntilLeftParen] at hp
        by_cases hv : value = '('
        · rw [if_pos hv] at hp; cases hp
        · rw [if_neg hv] at hp
          refine ih ?_ _ hp
          rw [List.countP_cons] at h
          simpa [isOpenParen, hv] using h
      | number _ | identifier _ | function _ | operator _ =>
        simp only [popUntilLeftParen] at hp
        refine ih ?_ _ hp
        rw [List.countP_cons] at h
        simpa [isOpenParen] using h

theorem drainStack_ok {α : Type} (stack : List (Token α)) :
    ∀ (output : List (Token α)), (∀ t ∈ stack, isParen t = false) →
      drainStack output stack = .ok (output ++ stack) := by
  induction stack with
  | nil => intro output _; simp [drainStack]
  | cons top stack ih =>
    intro output h
    have h1 := h top (List.mem_cons_self _ _)
    have h2 : ∀ t ∈ stack, isParen t = false := fun t ht => h t (List.mem_cons_of_mem _ ht)
    cases top with
    | paren _ => simp [isParen] at h1
    | number _ | identifier _ | function _ | operator _ =>
      simp only [drainStack]
      rw [ih _ h2]
      simp

theorem drainStack_fail {α : Type} (stack : List (Token α)) :
    ∀ (output : List (Token α)), (∃ t ∈ stack, isParen t = true) →
      drainStack output stack = .fail (.error "Mismatched parentheses.") := by
  induction stack with
  | nil => intro output h; obtain ⟨t, ht, _⟩ := h; cases ht
  | cons top stack ih =>
    intro output h
    cases top with
    | paren _ => rfl
    | number _ | identifier _ | function _ | operator _ =>
      simp only [drainStack]
      apply ih
      obtain ⟨t, ht, hp⟩ := h
      rcases List.mem_cons.mp ht with rfl | ht
      · simp [isParen] at hp
      · exact ⟨t, ht, hp⟩

theorem drainStack_shape {α : Type} (stack : List (Token α)) (output out : List (Token α))
    (h : drainStack output stack = .ok out) :
    out = output ++ stack ∧ ∀ t ∈ stack, isParen t = false := by
  by_cases hp : ∃ t ∈ stack, isParen t = true
  · rw [drainStack_fail stack output hp] at h; cases h
  · have hall : ∀ t ∈ stack, isParen t = false := by
      intro t ht
      cases hb : isParen t
      · rfl
      · exact absurd ⟨t, ht, hb⟩ hp
    rw [drainStack_ok stack output hall] at h
    cases h
    exact ⟨rfl, hall⟩


theorem stackInvariant_nil {α : Type} (ops : NumberOps α) :
    stackInvariant ops ([] : List (Token α)) :=
  ⟨fun _ h => (by cases h), fun _ h => (by cases h)⟩

theorem stackInvariant_of_append {α : Type} (ops : NumberOps α)
    (popped s : List (Token α)) (h : stackInvariant ops (popped ++ s)) :
    stackInvariant ops s :=
  ⟨fun op hop => h.1 op (List.mem_append_right _ hop),
    fun t ht => h.2 t (List.mem_append_right _ ht)⟩

theorem stackInvariant_cons {α : Type} (ops : NumberOps α) (t : Token α)
    (s : List (Token α)) (hs : stackInvariant ops s)
    (hop : ∀ op, t = .operator op → (OPERATORS ops op).isSome = true)
    (hparen : isParen t = true → isOpenParen t = true) :
    stackInvariant ops (t :: s) := by
  refine ⟨fun op h => ?_, fun x hx => ?_⟩
  · rcases List.mem_cons.mp h with h | h
    · exact hop op h.symm
    · exact hs.1 op h
  · rcases List.mem_cons.mp hx with rfl | hx
    · exact hparen
    · exact hs.2 x hx

theorem countP_isOpenParen_operators {α : Type} (popped : List (Token α))
    (h : ∀ t ∈ popped, ∃ op, t = Token.operator op) : popped.countP isOpenParen = 0 := by
  rw [List.countP_eq_zero]
  intro t ht
  obtain ⟨op, rfl⟩ := h t ht
  simp [isOpenParen]

theorem parenDepth_cons {α : Type} (token : Token α) (tokens : List (Token α)) (d : Nat) :
    parenDepth (token :: tokens) d = (parenDepth [token] d).bind (parenDepth tokens) := by
  simp only [parenDepth]
  split
  · rfl
  · split
    · split <;> rfl
    · rfl

/-- One token of `toRpn`: the step throws "Mismatched parentheses." exactly when
the token is a `)` at depth 0, and otherwise keeps the stack well formed with
the depth the token calls for. -/
theorem toRpnStep_depth {α : Type} (ops : NumberOps α) (token : Token α)
    (output stack : List (Token α))
    (hk : ∀ op, token = .operator op → (OPERATORS ops op).isSome = true)
    (hinv : stackInvariant ops stack) :
    match parenDepth [token] (stack.countP isOpenParen) with
    | none => toRpnStep ops token (output, stack) = .fail (.error "Mismatched parentheses.")
    | some d => ∃ o s, toRpnStep ops token (output, stack) = .ok (o, s) ∧
        stackInvariant ops s ∧ s.countP isOpenParen = d := by
  cases token with
  | number v =>
    simp only [parenDepth, isOpenParen, isCloseParen, Bool.false_eq_true, if_false]
    exact ⟨_, _, rfl, hinv, rfl⟩
  | identifier v =>
    simp only [parenDepth, isOpenParen, isCloseParen, Bool.false_eq_true, if_false]
    exact ⟨_, _, rfl, hinv, rfl⟩
  | function v =>
    simp only [parenDepth, isOpenParen, isCloseParen, Bool.false_eq_true, if_false]
    refine ⟨_, _, rfl, stackInvariant_cons ops _ _ hinv (fun _ h => by cases h)
      (fun h => by simp [isParen] at h), ?_⟩
    simp [List.countP_cons, isOpenParen]
  | operator c =>
    simp only [parenDepth, isOpenParen, isCloseParen, Bool.false_eq_true, if_false]
    obtain ⟨o, s, hpop⟩ := popOperators_known ops c (hk c rfl) stack output hinv.1
    obtain ⟨popped, h1, _, h3⟩ := popOperators_shape ops c stack output o s hpop
    refine ⟨o, .operator c :: s, by simp only [toRpnStep, hpop], ?_, ?_⟩
    · refine stackInvariant_cons ops _ _ (stackInvariant_of_append ops popped s (h1 ▸ hinv))
        (fun op h => ?_) (fun h => by simp [isParen] at h)
      cases h
      exact hk c rfl
    · rw [h1, List.countP_append, countP_isOpenParen_operators popped h3]
      simp [List.countP_cons, isOpenParen]
  | paren c =>
    by_cases ho : c = '('
    · subst ho
      simp only [parenDepth, isOpenParen, beq_self_eq_true, if_true]
      refine ⟨_, _, rfl, stackInvariant_cons ops _ _ hinv (fun _ h => by cases h)
        (fun _ => rfl), ?_⟩
      simp [List.countP_cons, isOpenParen]
    · by_cases hc : c = ')'
      · subst hc
        have e1 : isOpenParen (Token.paren ')' : Token α) = false := rfl
        have e2 : isCloseParen (Token.paren ')' : Token α) = true := rfl
        simp only [parenDepth, e1, e2, Bool.false_eq_true, if_false, if_true]
        by_cases hd : stack.countP isOpenParen = 0
        · rw [if_pos hd]
          simp only [toRpnStep, if_neg ho, if_true, popUntilLeftParen_none stack output hd]
          rfl
        · rw [if_neg hd]
          obtain ⟨o, s, hpop⟩ := popUntilLeftParen_some stack output (Nat.pos_of_ne_zero hd)
          obtain ⟨popped, h1, _, h3⟩ := popUntilLeftParen_shape stack output o s hpop
          have hs : stackInvariant ops s := by
            have := stackInvariant_of_append ops popped _ (h1 ▸ hinv)
            exact stackInvariant_of_append ops [Token.paren '('] s this
          have hcount : s.countP isOpenParen = stack.countP isOpenParen - 1 := by
            rw [h1, List.countP_append, h3, List.countP_cons]
            simp [isOpenParen]
          cases s with
          | nil =>
            exact ⟨o, [], by simp only [toRpnStep, if_neg ho, if_true, hpop], hs, hcount⟩
          | cons top s' =>
            cases top with
            | function name =>
              refine ⟨o ++ [.function name], s',
                by simp only [toRpnStep, if_neg ho, if_true, hpop],
                stackInvariant_of_append ops [Token.function name] s' hs, ?_⟩
              rw [← hcount]
              simp [List.countP_cons, isOpenParen]
            | number _ | identifier _ | operator _ | paren _ =>
              exact ⟨o, _, by simp only [toRpnStep, if_neg ho, if_true, hpop], hs, hcount⟩
      · have e1 : isOpenParen (Token.paren c : Token α) = false := by simp [isOpenParen, ho]
        have e2 : isCloseParen (Token.paren c : Token α) = false := by simp [isCloseParen, hc]
        simp only [parenDepth, e1, e2, Bool.false_eq_true, if_false]
        exact ⟨output, stack, by simp only [toRpnStep, if_neg ho, if_neg hc], hinv, rfl⟩

/-- The pass of `toRpn` over the tokens follows the running depth. -/
theorem toRpnLoop_depth {α : Type} (ops : NumberOps α) (tokens : List (Token α)) :
    ∀ (output stack : List (Token α)), operatorsKnown ops tokens → stackInvariant ops stack →
      match parenDepth tokens (stack.countP isOpenParen) with
      | none => toRpnLoop ops tokens (output, stack) =
          .fail (.error "Mismatched parentheses.")
      | some d => ∃ o s, toRpnLoop ops tokens (output, stack) = .ok (o, s) ∧
          stackInvariant ops s ∧ s.countP isOpenParen = d := by
  induction tokens with
  | nil =>
    intro output stack _ hinv
    simp only [parenDepth]
    exact ⟨output, stack, rfl, hinv, rfl⟩
  | cons token tokens ih =>
    intro output stack hk hinv
    have hk' : operatorsKnown ops tokens := fun op h => hk op (List.mem_cons_of_mem _ h)
    have hstep := toRpnStep_depth ops token output stack
      (fun op h => hk op (h ▸ List.mem_cons_self _ _)) hinv
    rw [parenDepth_cons]
    cases hd : parenDepth [token] (stack.countP isOpenParen) with
    | none =>
      rw [hd] at hstep
      simp only [Option.bind, toRpnLoop, hstep]
    | some d =>
      rw [hd] at hstep
      obtain ⟨o, s, hs, hinv', hcount⟩ := hstep
      have := ih o s hk' hinv'
      rw [hcount] at this
      simp only [Option.bind, toRpnLoop, hs]
      exact this

/-- The outcome of `toRpn` on tokens whose operators are keys of `OPERATORS`: it
succeeds when the parentheses are balanced and throws "Mismatched parentheses."
otherwise. -/
theorem toRpn_balanced {α : Type} (ops : NumberOps α) (tokens : List (Token α))
    (hk : operatorsKnown ops tokens) :
    (parensBalanced tokens = true → ∃ rpn, toRpn ops tokens = .ok rpn) ∧
    (parensBalanced tokens = false →
      toRpn ops tokens = .fail (.error "Mismatched parentheses.")) := by
  have hloop := toRpnLoop_depth ops tokens [] [] hk (stackInvariant_nil ops)
  simp only [List.countP_nil] at hloop
  constructor
  · intro hb
    rw [(parensBalanced_iff tokens).mp hb] at hloop
    obtain ⟨o, s, hs, hinv, hcount⟩ := hloop
    refine ⟨o ++ s, ?_⟩
    simp only [toRpn, hs]
    apply drainStack_ok
    intro t ht
    cases hp : isParen t
    · rfl
    · have := hinv.2 t ht hp
      have hpos : 0 < s.countP isOpenParen := List.countP_pos_iff.mpr ⟨t, ht, this⟩
      omega
  · intro hb
    have hne : parenDepth tokens 0 ≠ some 0 := by
      intro h
      rw [(parensBalanced_iff tokens).mpr h] at hb
      cases hb
    cases hd : parenDepth tokens 0 with
    | none =>
      rw [hd] at hloop
      simp only [toRpn, hloop]
    | some d =>
      rw [hd] at hloop
      obtain ⟨o, s, hs, _, hcount⟩ := hloop
      have hpos : 0 < s.countP isOpenParen := by
        rcases Nat.eq_zero_or_pos d with h0 | h0
        · subst h0; exact absurd hd hne
        · omega
      obtain ⟨t, ht, hopen⟩ := List.countP_pos_iff.mp hpos
      simp only [toRpn, hs]
      apply drainStack_fail
      refine ⟨t, ht, ?_⟩
      cases t <;> simp_all [isOpenParen, isParen]


/-- C7. Mismatched parentheses.  For every token sequence whose Operator tokens
are keys of `OPERATORS`, `toRpn` fails if and only if the Paren tokens are
unbalanced (some prefix contains more `)` than `(`, or the totals differ), the
failure is "Mismatched parentheses.", and on every balanced sequence `toRpn`
succeeds; the tokens of `(1+2` and of `1+2)` both fail. -/
theorem C7_mismatched_parentheses {α : Type} (ops : NumberOps α) (tokens : List (Token α))
    (hk : operatorsKnown ops tokens) :
    ((∃ e, toRpn ops tokens = .fail e) ↔ parensBalanced tokens = false) ∧
    (toRpn ops tokens = .fail (.error "Mismatched parentheses.") ↔
      parensBalanced tokens = false) ∧
    (parensBalanced tokens = true → ∃ rpn, toRpn ops tokens = .ok rpn) ∧
    (tokenize ops "(1+2").bind (toRpn ops) = .fail (.error "Mismatched parentheses.") ∧
    (tokenize ops "1+2)").bind (toRpn ops) = .fail (.error "Mismatched parentheses.") := by
  have h := toRpn_balanced ops tokens hk
  refine ⟨⟨?_, fun hb => ⟨_, h.2 hb⟩⟩, ⟨?_, h.2⟩, h.1, rfl, rfl⟩
  · rintro ⟨e, he⟩
    cases hb : parensBalanced tokens
    · rfl
    · obtain ⟨rpn, hr⟩ := h.1 hb
      rw [hr] at he
      cases he
  · intro he
    cases hb : parensBalanced tokens
    · rfl
    · obtain ⟨rpn, hr⟩ := h.1 hb
      rw [hr] at he
      cases he

theorem C7_mismatched_parentheses_witness :
    toRpn (exactOps noMathFunctions)
        [.paren '(', .number (some 1), .operator '+', .number (some 2)] =
      .fail (.error "Mismatched parentheses.") ↔
    parensBalanced ([.paren '(', .number (some 1), .operator '+', .number (some 2)] :
      List (Token (Option ℚ))) = false :=
  (C7_mismatched_parentheses (exactOps noMathFunctions)
    [.paren '(', .number (some 1), .operator '+', .number (some 2)]
    (by
      intro op h
      simp only [List.mem_cons, Token.operator.injEq, List.mem_singleton, reduceCtorEq,
        false_or, or_false, List.not_mem_nil] at h
      subst h
      rfl)).2.1

/-! ### What `toRpn` keeps of its input -/

theorem filter_notParen_of_noParen {α : Type} (l : List (Token α))
    (h : ∀ t ∈ l, isParen t = false) : l.filter (fun t => !isParen t) = l := by
  rw [List.filter_eq_self]
  intro t ht
  simp [h t ht]

theorem filter_isOperand_of_none {α : Type} (l : List (Token α))
    (h : ∀ t ∈ l, isOperand t = false) : l.filter isOperand = [] := by
  rw [List.filter_eq_nil_iff]
  intro t ht
  simp [h t ht]

theorem isParen_false_of_not_open {α : Type} (popped stack : List (Token α))
    (hsub : ∀ t ∈ popped, t ∈ stack)
    (hstack : ∀ t ∈ stack, isParen t = true → isOpenParen t = true)
    (hpop : popped.countP isOpenParen = 0) : ∀ t ∈ popped, isParen t = false := by
  intro t ht
  cases hp : isParen t
  · rfl
  · have hopen := hstack t (hsub t ht) hp
    have := List.countP_pos_iff.mpr ⟨t, ht, hopen⟩
    omega

/-- One token of `toRpn` moves tokens between input, stack and output without
losing or adding any but Paren tokens, and appends operands to the output in
input order. -/
theorem toRpnStep_keeps {α : Type} (ops : NumberOps α) (token : Token α)
    (output stack o s : List (Token α))
    (h : toRpnStep ops token (output, stack) = .ok (o, s))
    (hinv : stateInvariant output stack) :
    stateInvariant o s ∧
    (o ++ s.filter (fun t => !isParen t)).Perm
      ((output ++ stack.filter (fun t => !isParen t)) ++
        [token].filter (fun t => !isParen t)) ∧
    o.filter isOperand = output.filter isOperand ++ [token].filter isOperand := by
  obtain ⟨hout, hstack, hoper⟩ := hinv
  cases token with
  | number v =>
    simp only [toRpnStep, Result.ok.injEq, Prod.mk.injEq] at h
    obtain ⟨rfl, rfl⟩ := h
    refine ⟨⟨?_, hstack, hoper⟩, ?_, by simp [isOperand]⟩
    · intro t ht
      rcases List.mem_append.mp ht with ht | ht
      · exact hout t ht
      · simp only [List.mem_singleton] at ht; subst ht; rfl
    · simp only [isParen, Bool.not_false, List.filter_cons_of_pos, List.filter_nil,
        List.append_assoc]
      exact List.Perm.append_left _ List.perm_append_comm
  | identifier v =>
    simp only [toRpnStep, Result.ok.injEq, Prod.mk.injEq] at h
    obtain ⟨rfl, rfl⟩ := h
    refine ⟨⟨?_, hstack, hoper⟩, ?_, by simp [isOperand]⟩
    · intro t ht
      rcases List.mem_append.mp ht with ht | ht
      · exact hout t ht
      · simp only [List.mem_singleton] at ht; subst ht; rfl
    · simp only [isParen, Bool.not_false, List.filter_cons_of_pos, List.filter_nil,
        List.append_assoc]
      exact List.Perm.append_left _ List.perm_append_comm
  | function v =>
    simp only [toRpnStep, Result.ok.injEq, Prod.mk.injEq] at h
    obtain ⟨rfl, rfl⟩ := h
    refine ⟨⟨hout, ?_, ?_⟩, ?_, by simp [isOperand]⟩
    · intro t ht hp
      rcases List.mem_cons.mp ht with rfl | ht
      · simp [isParen] at hp
      · exact hstack t ht hp
    · intro t ht
      rcases List.mem_cons.mp ht with rfl | ht
      · rfl
      · exact hoper t ht
    · simp only [isParen, Bool.not_false, List.filter_cons_of_pos, List.filter_nil,
        List.append_assoc]
      exact List.Perm.append_left _ (@List.perm_append_comm _ [Token.function v] _)
  | operator c =>
    simp only [toRpnStep] at h
    cases hpop : popOperators ops c output stack with
    | fail e => rw [hpop] at h; cases h
    | ok p =>
      obtain ⟨o', s'⟩ := p
      rw [hpop] at h
      simp only [Result.ok.injEq, Prod.mk.injEq] at h
      obtain ⟨rfl, rfl⟩ := h
      obtain ⟨popped, h1, h2, h3⟩ := popOperators_shape ops c stack output o' s' hpop
      subst h1 h2
      have hpp : ∀ t ∈ popped, isParen t = false := by
        intro t ht; obtain ⟨op, rfl⟩ := h3 t ht; rfl
      have hpo : ∀ t ∈ popped, isOperand t = false := by
        intro t ht; obtain ⟨op, rfl⟩ := h3 t ht; rfl
      refine ⟨⟨?_, ?_, ?_⟩, ?_, ?_⟩
      · intro t ht
        rcases List.mem_append.mp ht with ht | ht
        · exact hout t ht
        · exact hpp t ht
      · intro t ht hp
        rcases List.mem_cons.mp ht with rfl | ht
        · simp [isParen] at hp
        · exact hstack t (List.mem_append_right _ ht) hp
      · intro t ht
        rcases List.mem_cons.mp ht with rfl | ht
        · rfl
        · exact hoper t (List.mem_append_right _ ht)
      · have hf1 : (Token.operator c :: s').filter (fun t => !isParen t) =
            Token.operator c :: s'.filter (fun t => !isParen t) := rfl
        have hf2 : [Token.operator c].filter (fun t => !isParen t) =
            ([Token.operator c] : List (Token α)) := rfl
        rw [hf1, hf2, List.filter_append, filter_notParen_of_noParen popped hpp]
        simp only [List.append_assoc]
        refine List.Perm.append_left _ (List.Perm.append_left _ ?_)
        exact @List.perm_append_comm _ [Token.operator c] _
      · simp [List.filter_append, filter_isOperand_of_none popped hpo, isOperand]
  | paren c =>
    simp only [toRpnStep] at h
    by_cases ho : c = '('
    · subst ho
      simp only [if_true, Result.ok.injEq, Prod.mk.injEq] at h
      obtain ⟨rfl, rfl⟩ := h
      refine ⟨⟨hout, ?_, ?_⟩, by simp [isParen], by simp [isOperand]⟩
      · intro t ht hp
        rcases List.mem_cons.mp ht with rfl | ht
        · rfl
        · exact hstack t ht hp
      · intro t ht
        rcases List.mem_cons.mp ht with rfl | ht
        · rfl
        · exact hoper t ht
    · rw [if_neg ho] at h
      by_cases hc : c = ')'
      · rw [if_pos hc] at h
        cases hpop : popUntilLeftParen output stack with
        | none => rw [hpop] at h; cases h
        | some p =>
          obtain ⟨o', s'⟩ := p
          rw [hpop] at h
          obtain ⟨popped, h1, h2, h3⟩ := popUntilLeftParen_shape stack output o' s' hpop
          subst h1 h2
          have hpp : ∀ t ∈ popped, isParen t = false :=
            isParen_false_of_not_open popped _ (fun t ht => List.mem_append_left _ ht)
              hstack h3
          have hpo : ∀ t ∈ popped, isOperand t = false :=
            fun t ht => hoper t (List.mem_append_left _ ht)
          have hs' : ∀ t ∈ s', t ∈ popped ++ Token.paren '(' :: s' :=
            fun t ht => List.mem_append_right _ (List.mem_cons_of_mem _ ht)
          have hbase : stateInvariant (output ++ popped) s' ∧
              ((output ++ popped) ++ s'.filter (fun t => !isParen t)).Perm
                ((output ++ (popped ++ Token.paren '(' :: s').filter (fun t => !isParen t)) ++
                  [Token.paren c].filter (fun t => !isParen t)) ∧
              (output ++ popped).filter isOperand =
                output.filter isOperand ++ [Token.paren c].filter isOperand := by
            refine ⟨⟨?_, fun t ht hp => hstack t (hs' t ht) hp,
              fun t ht => hoper t (hs' t ht)⟩, ?_, ?_⟩
            · intro t ht
              rcases List.mem_append.mp ht with ht | ht
              · exact hout t ht
              · exact hpp t ht
            · have hf1 : (Token.paren '(' :: s').filter (fun t => !isParen t) =
                  s'.filter (fun t => !isParen t) := rfl
              have hf2 : [Token.paren c].filter (fun t => !isParen t) =
                  ([] : List (Token α)) := rfl
              rw [hf2, List.filter_append, filter_notParen_of_noParen popped hpp, hf1]
              simp only [List.append_assoc, List.append_nil]
              exact List.Perm.refl _
            · have hf2 : [Token.paren c].filter isOperand = ([] : List (Token α)) := rfl
              rw [hf2, List.filter_append, filter_isOperand_of_none popped hpo]
          cases s' with
          | nil =>
            simp only [Result.ok.injEq, Prod.mk.injEq] at h
            obtain ⟨rfl, rfl⟩ := h
            exact hbase
          | cons top s'' =>
            cases top with
            | function name =>
              simp only [Result.ok.injEq, Prod.mk.injEq] at h
              obtain ⟨rfl, rfl⟩ := h
              obtain ⟨⟨b1, b2, b3⟩, b4, b5⟩ := hbase
              refine ⟨⟨?_, fun t ht hp => b2 t (List.mem_cons_of_mem _ ht) hp,
                fun t ht => b3 t (List.mem_cons_of_mem _ ht)⟩, ?_, ?_⟩
              · intro t ht
                rcases List.mem_append.mp ht with ht | ht
                · exact b1 t ht
                · simp only [List.mem_singleton] at ht; subst ht; rfl
              · refine List.Perm.trans ?_ b4
                simp only [isParen, Bool.not_false, List.filter_cons_of_pos, List.append_assoc,
                  List.singleton_append]
                exact List.Perm.refl _
              · rw [List.filter_append, b5]
                simp [isOperand]
            | number _ | identifier _ | operator _ | paren _ =>
              simp only [Result.ok.injEq, Prod.mk.injEq] at h
              obtain ⟨rfl, rfl⟩ := h
              exact hbase
      · rw [if_neg hc] at h
        simp only [Result.ok.injEq, Prod.mk.injEq] at h
        obtain ⟨rfl, rfl⟩ := h
        exact ⟨⟨hout, hstack, hoper⟩, by simp [isParen], by simp [isOperand]⟩

theorem toRpnLoop_keeps {α : Type} (ops : NumberOps α) (tokens : List (Token α)) :
    ∀ (output stack o s : List (Token α)),
      toRpnLoop ops tokens (output, stack) = .ok (o, s) → stateInvariant output stack →
      stateInvariant o s ∧
      (o ++ s.filter (fun t => !isParen t)).Perm
        ((output ++ stack.filter (fun t => !isParen t)) ++
          tokens.filter (fun t => !isParen t)) ∧
      o.filter isOperand = output.filter isOperand ++ tokens.filter isOperand := by
  induction tokens with
  | nil =>
    intro output stack o s h hinv
    simp only [toRpnLoop, Result.ok.injEq, Prod.mk.injEq] at h
    obtain ⟨rfl, rfl⟩ := h
    exact ⟨hinv, by simp, by simp⟩
  | cons token tokens ih =>
    intro output stack o s h hinv
    simp only [toRpnLoop] at h
    cases hstep : toRpnStep ops token (output, stack) with
    | fail e => rw [hstep] at h; cases h
    | ok p =>
      obtain ⟨o₁, s₁⟩ := p
      rw [hstep] at h
      obtain ⟨i1, p1, q1⟩ := toRpnStep_keeps ops token output stack o₁ s₁ hstep hinv
      obtain ⟨i2, p2, q2⟩ := ih o₁ s₁ o s h i1
      refine ⟨i2, ?_, ?_⟩
      · refine p2.trans ?_
        have : (token :: tokens).filter (fun t => !isParen t) =
            [token].filter (fun t => !isParen t) ++ tokens.filter (fun t => !isParen t) := by
          rw [← List.filter_append]; rfl
        rw [this, ← List.append_assoc]
        exact List.Perm.append_right _ p1
      · have : (token :: tokens).filter isOperand =
            [token].filter isOperand ++ tokens.filter isOperand := by
          rw [← List.filter_append]; rfl
        rw [q2, q1, this, List.append_assoc]

/-- C8. Whenever `toRpn` succeeds, its output contains no Paren token, is a
permutation of the non-Paren tokens of its input, and lists the Number and
Identifier tokens in the same relative order as the input. -/
theorem C8_toRpn_output {α : Type} (ops : NumberOps α) (tokens rpn : List (Token α))
    (h : toRpn ops tokens = .ok rpn) :
    (∀ t ∈ rpn, isParen t = false) ∧
    rpn.Perm (tokens.filter (fun t => !isParen t)) ∧
    rpn.filter isOperand = tokens.filter isOperand := by
  simp only [toRpn] at h
  cases hloop : toRpnLoop ops tokens ([], []) with
  | fail e => rw [hloop] at h; cases h
  | ok p =>
    obtain ⟨o, s⟩ := p
    rw [hloop] at h
    obtain ⟨⟨i1, _, i3⟩, hp, hq⟩ := toRpnLoop_keeps ops tokens [] [] o s hloop
      ⟨fun _ ht => (by cases ht), fun _ ht => (by cases ht), fun _ ht => (by cases ht)⟩
    obtain ⟨rfl, hs⟩ := drainStack_shape s o rpn h
    refine ⟨?_, ?_, ?_⟩
    · intro t ht
      rcases List.mem_append.mp ht with ht | ht
      · exact i1 t ht
      · exact hs t ht
    · rw [filter_notParen_of_noParen s hs] at hp
      simpa using hp
    · rw [List.filter_append, hq, filter_isOperand_of_none s i3]
      simp

theorem C8_toRpn_output_witness :
    (∀ t ∈ ([.number (some 2), .number (some 3), .operator '+', .number (some 4),
        .operator '*'] : List (Token (Option ℚ))), isParen t = false) ∧
    ([.number (some 2), .number (some 3), .operator '+', .number (some 4),
        .operator '*'] : List (Token (Option ℚ))).Perm
      (([.paren '(', .number (some 2), .operator '+', .number (some 3), .paren ')',
        .operator '*', .number (some 4)] : List (Token (Option ℚ))).filter
          (fun t => !isParen t)) ∧
    ([.number (some 2), .number (some 3), .operator '+', .number (some 4),
        .operator '*'] : List (Token (Option ℚ))).filter isOperand =
      ([.paren '(', .number (some 2), .operator '+', .number (some 3), .paren ')',
        .operator '*', .number (some 4)] : List (Token (Option ℚ))).filter isOperand :=
  C8_toRpn_output (exactOps noMathFunctions)
    [.paren '(', .number (some 2), .operator '+', .number (some 3), .paren ')',
      .operator '*', .number (some 4)]
    [.number (some 2), .number (some 3), .operator '+', .number (some 4), .operator '*'] rfl


/-! ### Totality of the pipeline -/

theorem handled_raise_fixed {β : Type} (message : String) (h : message ∈ fixedMessages) :
    (raise message : Result β).handled :=
  Or.inl h

theorem handled_fail_congr {β γ : Type} (e : Failure)
    (h : (Result.fail e : Result β).handled) : (Result.fail e : Result γ).handled := by
  cases e <;> exact h

theorem identifierRun_append {identifier : List Char} {next : Char}
    (h : identifierRun identifier = true) (hn : isIdentifierChar next = true) :
    identifierRun (identifier ++ [next]) = true := by
  cases identifier with
  | nil => simp [identifierRun] at h
  | cons first more =>
    simp only [identifierRun, Bool.and_eq_true, List.all_eq_true] at h
    simp only [List.cons_append, identifierRun, Bool.and_eq_true, List.all_eq_true,
      List.mem_append, List.mem_singleton]
    refine ⟨h.1, ?_⟩
    rintro x (hx | rfl)
    · exact h.2 x hx
    · exact hn

theorem scanIdentifier_identifierRun (rest : List Char) :
    ∀ identifier : List Char, identifierRun identifier = true →
      identifierRun (scanIdentifier identifier rest).1 = true := by
  induction rest with
  | nil => intro identifier h; exact h
  | cons next rest ih =>
    intro identifier h
    simp only [scanIdentifier]
    split
    · rename_i hn
      exact ih _ (identifierRun_append h hn)
    · exact h

/-- An iteration of the scanning loop adds only tokens of the tokenizer's shapes. -/
theorem tokenizeStep_tokens {α : Type} (ops : NumberOps α) (char : Char) (rest : List Char)
    (tokens : List (Token α)) (rest' : List Char) (tokens' : List (Token α))
    (h : tokenizeStep ops char rest tokens = .ok (rest', tokens'))
    (hall : ∀ t ∈ tokens, tokenFromTokenizer t) : ∀ t ∈ tokens', tokenFromTokenizer t := by
  have hsnoc : ∀ (x : Token α), tokenFromTokenizer x →
      ∀ t ∈ tokens ++ [x], tokenFromTokenizer t := by
    intro x hx t ht
    rcases List.mem_append.mp ht with ht | ht
    · exact hall t ht
    · simp only [List.mem_singleton] at ht; subst ht; exact hx
  unfold tokenizeStep at h
  split at h
  · cases h; exact hall
  · split at h
    · unfold tokenizeNumber at h
      generalize scanNumber [char] (if char = '.' then 1 else 0) rest = s at h
      by_cases hs : s.1 = ['.']
      · rw [if_pos hs] at h; cases h
      · rw [if_neg hs] at h; cases h; exact hsnoc (.number _) trivial
    · split at h
      · rename_i hletter
        unfold tokenizeIdentifier at h
        have hrun : identifierRun (scanIdentifier [char] rest).1 = true :=
          scanIdentifier_identifierRun rest [char] (by simp [identifierRun, hletter])
        have hiff := functionsGet_isSome_iff ops (scanIdentifier [char] rest).1 hrun
        split at h
        · rename_i hsome
          cases h
          exact hsnoc _ (hiff.mp hsome)
        · cases h; exact hsnoc (.identifier _) trivial
      · split at h
        · rename_i hop
          unfold tokenizeOperator at h
          split at h
          · cases h
            intro t ht
            rcases List.mem_append.mp ht with ht | ht
            · exact hsnoc (.number _) trivial t ht
            · simp only [List.mem_singleton] at ht; subst ht; exact hop
          · cases h; exact hsnoc _ hop
        · split at h
          · rename_i hparen
            cases h; exact hsnoc _ hparen
          · cases h

/-- An iteration of the scanning loop returns or throws one of the engine's
errors. -/
theorem tokenizeStep_handled {α : Type} (ops : NumberOps α) (char : Char) (rest : List Char)
    (tokens : List (Token α)) : (tokenizeStep ops char rest tokens).handled := by
  unfold tokenizeStep
  split
  · trivial
  · split
    · unfold tokenizeNumber
      generalize scanNumber [char] (if char = '.' then 1 else 0) rest = s
      by_cases hs : s.1 = ['.']
      · rw [if_pos hs]; exact handled_raise_fixed _ (by decide)
      · rw [if_neg hs]; trivial
    · split
      · unfold tokenizeIdentifier
        split <;> trivial
      · split
        · unfold tokenizeOperator
          split <;> trivial
        · split
          · trivial
          · exact Or.inr (Or.inl ⟨char, rfl⟩)

theorem tokenizeLoop_handled {α : Type} (ops : NumberOps α) (fuel : Nat) :
    ∀ (rest : List Char) (tokens : List (Token α)), rest.length ≤ fuel →
      (∀ t ∈ tokens, tokenFromTokenizer t) →
      (tokenizeLoop ops fuel rest tokens).handled ∧
      ∀ out, tokenizeLoop ops fuel rest tokens = .ok out → ∀ t ∈ out, tokenFromTokenizer t := by
  induction fuel with
  | zero =>
    intro rest tokens h hall
    have : rest = [] := List.length_eq_zero.mp (Nat.le_zero.mp h)
    subst this
    rw [tokenizeLoop_nil]
    exact ⟨trivial, fun out ho => by cases ho; exact hall⟩
  | succ fuel ih =>
    intro rest tokens h hall
    cases rest with
    | nil =>
      rw [tokenizeLoop_nil]
      exact ⟨trivial, fun out ho => by cases ho; exact hall⟩
    | cons char rest =>
      rw [tokenizeLoop_succ]
      have hh := tokenizeStep_handled ops char rest tokens
      cases hs : tokenizeStep ops char rest tokens with
      | fail e =>
        rw [hs] at hh
        exact ⟨handled_fail_congr e hh, fun out ho => by cases ho⟩
      | ok p =>
        obtain ⟨rest', tokens'⟩ := p
        have hl := tokenizeStep_length ops char rest tokens rest' tokens' hs
        simp only [List.length_cons] at h
        exact ih rest' tokens' (by omega)
          (tokenizeStep_tokens ops char rest tokens rest' tokens' hs hall)

/-- The tokenizer is total: it returns tokens of its own shapes or throws one of
the engine's errors, within its budget of one iteration per character. -/
theorem tokenize_handled {α : Type} (ops : NumberOps α) (expression : String) :
    (tokenize ops expression).handled ∧
    ∀ tokens, tokenize ops expression = .ok tokens → ∀ t ∈ tokens, tokenFromTokenizer t :=
  tokenizeLoop_handled ops expression.length expression.toList [] (Nat.le_refl _)
    (fun _ h => (by cases h))

theorem operator_known {α : Type} (ops : NumberOps α) (op : Char)
    (h : isOperatorChar op = true) : (OPERATORS ops op).isSome = true := by
  rcases isOperatorChar_cases h with rfl | rfl | rfl | rfl | rfl <;> rfl

/-- Every Operator token built by the tokenizer has an entry in `OPERATORS`. -/
theorem operatorsKnown_of_tokenizer {α : Type} (ops : NumberOps α) (tokens : List (Token α))
    (h : ∀ t ∈ tokens, tokenFromTokenizer t) : operatorsKnown ops tokens :=
  fun op hop => operator_known ops op (h _ hop)

/-- Every token of the output of `toRpn` is a token of its input. -/
theorem toRpn_mem {α : Type} (ops : NumberOps α) (tokens rpn : List (Token α))
    (h : toRpn ops tokens = .ok rpn) : ∀ t ∈ rpn, t ∈ tokens := by
  simp only [toRpn] at h
  cases hloop : toRpnLoop ops tokens ([], []) with
  | fail e => rw [hloop] at h; cases h
  | ok p =>
    obtain ⟨o, s⟩ := p
    rw [hloop] at h
    obtain ⟨_, hp, _⟩ := toRpnLoop_keeps ops tokens [] [] o s hloop
      ⟨fun _ ht => (by cases ht), fun _ ht => (by cases ht), fun _ ht => (by cases ht)⟩
    obtain ⟨rfl, hs⟩ := drainStack_shape s o rpn h
    rw [filter_notParen_of_noParen s hs] at hp
    intro t ht
    have := (hp.mem_iff).mp ht
    simp only [List.filter_nil, List.append_nil, List.nil_append] at this
    exact List.mem_of_mem_filter this

/-- The converter on the tokenizer's tokens returns a postfix sequence of such
tokens or throws "Mismatched parentheses.". -/
theorem toRpn_handled {α : Type} (ops : NumberOps α) (tokens : List (Token α))
    (h : ∀ t ∈ tokens, tokenFromTokenizer t) :
    (toRpn ops tokens).handled ∧
    ∀ rpn, toRpn ops tokens = .ok rpn → ∀ t ∈ rpn, tokenFromTokenizer t := by
  have hb := toRpn_balanced ops tokens (operatorsKnown_of_tokenizer ops tokens h)
  constructor
  · cases hbal : parensBalanced tokens
    · rw [hb.2 hbal]; exact handled_raise_fixed _ (by decide)
    · obtain ⟨rpn, hr⟩ := hb.1 hbal
      rw [hr]; trivial
  · intro rpn hr t ht
    exact h t (toRpn_mem ops tokens rpn hr t ht)

theorem validate_handled {α : Type} (ops : NumberOps α) (message : String)
    (hm : message ∈ fixedMessages) (result : α) : (validate ops message result).handled := by
  unfold validate
  split
  · exact handled_raise_fixed _ hm
  · trivial

theorem bind_handled {β γ : Type} (r : Result β) (f : β → Result γ) (hr : r.handled)
    (hf : ∀ v, r = .ok v → (f v).handled) : (r.bind f).handled := by
  cases r with
  | ok v => exact hf v rfl
  | fail e => exact handled_fail_congr e hr

/-- The call `FUNCTIONS[name](value)` with its check, for a name the tokenizer
emits, returns or throws one of the engine's errors. -/
theorem applyFunction_handled {α : Type} (ops : NumberOps α) (name : String) (value : α)
    (h : name ∈ functionNames ∨ name = "constructor") :
    (applyFunction ops name value).handled := by
  have hv := fun r => validate_handled ops "Invalid function result." (by decide) r
  simp only [functionNames, List.mem_cons, List.mem_singleton, List.not_mem_nil, or_false] at h
  rcases h with (rfl | rfl | rfl | rfl) | rfl
  · show (Result.bind (if ops.isNegative value then
        raise "Square root requires a non-negative number." else .ok (ops.sqrt value))
        (validate ops "Invalid function result.")).handled
    split
    · exact handled_raise_fixed _ (by decide)
    · exact hv _
  · exact hv _
  · exact hv _
  · show (Result.bind (if !ops.isFinite (ops.tan value) then
        raise "Tangent is undefined for this angle." else .ok (ops.tan value))
        (validate ops "Invalid function result.")).handled
    split
    · exact handled_raise_fixed _ (by decide)
    · exact hv _
  · exact handled_raise_fixed _ (by decide)

/-- The call `OPERATORS[op].fn(left, right)` with its check, for an operator the
tokenizer emits, returns or throws one of the engine's errors. -/
theorem applyOperator_handled {α : Type} (ops : NumberOps α) (op : Char) (left right : α)
    (h : isOperatorChar op = true) : (applyOperator ops op left right).handled := by
  have hv := fun r => validate_handled ops "Invalid mathematical result." (by decide) r
  rcases isOperatorChar_cases h with rfl | rfl | rfl | rfl | rfl
  · exact hv _
  · exact hv _
  · exact hv _
  · show (Result.bind (if ops.isZero right then raise "Division by zero is not allowed."
        else .ok (ops.div left right)) (validate ops "Invalid mathematical result.")).handled
    split
    · exact handled_raise_fixed _ (by decide)
    · exact hv _
  · exact hv _

theorem evaluateRpnStep_handled {α : Type} (ops : NumberOps α) (scope : Scope α)
    (token : Token α) (stack : List α) (h : tokenFromTokenizer token) :
    (evaluateRpnStep ops scope token stack).handled := by
  cases token with
  | number v => trivial
  | identifier name =>
    simp only [evaluateRpnStep]
    split
    · trivial
    · exact Or.inr (Or.inr ⟨name, rfl⟩)
  | function name =>
    cases stack with
    | nil => exact handled_raise_fixed _ (by decide)
    | cons value stack' =>
      have := applyFunction_handled ops name value h
      simp only [evaluateRpnStep]
      cases hr : applyFunction ops name value with
      | ok r => trivial
      | fail e => rw [hr] at this; exact handled_fail_congr e this
  | operator op =>
    cases stack with
    | nil => exact handled_raise_fixed _ (by decide)
    | cons right stack' =>
      cases stack' with
      | nil => exact handled_raise_fixed _ (by decide)
      | cons left stack'' =>
        have := applyOperator_handled ops op left right h
        simp only [evaluateRpnStep]
        cases hr : applyOperator ops op left right with
        | ok r => trivial
        | fail e => rw [hr] at this; exact handled_fail_congr e this
  | paren c => trivial

theorem evaluateRpnLoop_handled {α : Type} (ops : NumberOps α) (scope : Scope α)
    (tokens : List (Token α)) :
    ∀ stack : List α, (∀ t ∈ tokens, tokenFromTokenizer t) →
      (evaluateRpnLoop ops scope tokens stack).handled := by
  induction tokens with
  | nil => intro stack _; trivial
  | cons token tokens ih =>
    intro stack h
    have hstep := evaluateRpnStep_handled ops scope token stack (h token (List.mem_cons_self _ _))
    simp only [evaluateRpnLoop]
    cases hs : evaluateRpnStep ops scope token stack with
    | ok stack' => exact ih stack' (fun t ht => h t (List.mem_cons_of_mem _ ht))
    | fail e => rw [hs] at hstep; exact handled_fail_congr e hstep

theorem evaluateRpn_handled {α : Type} (ops : NumberOps α) (scope : Scope α)
    (tokens : List (Token α)) (h : ∀ t ∈ tokens, tokenFromTokenizer t) :
    (evaluateRpn ops scope tokens).handled := by
  have hloop := evaluateRpnLoop_handled ops scope tokens [] h
  simp only [evaluateRpn]
  cases hs : evaluateRpnLoop ops scope tokens [] with
  | fail e => rw [hs] at hloop; exact handled_fail_congr e hloop
  | ok stack =>
    cases stack with
    | nil => exact handled_raise_fixed _ (by decide)
    | cons v rest =>
      cases rest with
      | nil => trivial
      | cons _ _ => exact handled_raise_fixed _ (by decide)

/-- The pipeline is total: for every input string, scope and arithmetic it
returns a number or throws one of the engine's own errors; it never ends in a
`TypeError` and never exhausts the tokenizer's budget. -/
theorem evaluate_handled {α : Type} (ops : NumberOps α) (scope : Scope α)
    (expression : String) : (evaluate ops scope expression).handled := by
  obtain ⟨ht, htok⟩ := tokenize_handled ops expression
  unfold evaluate
  refine bind_handled _ _ ht (fun tokens htokens => ?_)
  obtain ⟨hr, hrpn⟩ := toRpn_handled ops tokens (htok tokens htokens)
  exact bind_handled _ _ hr (fun rpn hrpn' => evaluateRpn_handled ops scope rpn (hrpn rpn hrpn'))


/-! ### Conversion and evaluation of expression trees -/

/-- The converter reads the rendering of a tree, whatever follows it and
whatever lies on the stack below (no function on top), as the tree's post-order
traversal appended to the output, leaving the stack as it found it. -/
theorem toRpnLoop_infixTokens {α : Type} (ops : NumberOps α) (tree : ExprTree α) :
    ∀ (rest output stack : List (Token α)),
      (∀ name below, stack ≠ .function name :: below) →
      toRpnLoop ops (tree.infixTokens ++ rest) (output, stack) =
        toRpnLoop ops rest (output ++ tree.postOrder, stack) := by
  induction tree with
  | number value => intro rest output stack _; rfl
  | identifier name => intro rest output stack _; rfl
  | binary op left right ihl ihr =>
    intro rest output stack hstack
    have h1 : (ExprTree.binary op left right).infixTokens ++ rest =
        .paren '(' :: (left.infixTokens ++
          (.operator op :: (right.infixTokens ++ (.paren ')' :: rest)))) := by
      simp [ExprTree.infixTokens]
    have hstep1 : toRpnStep ops (.paren '(') (output, stack) =
        .ok (output, .paren '(' :: stack) := rfl
    have hstep2 : toRpnStep ops (.operator op) (output ++ left.postOrder, .paren '(' :: stack) =
        .ok (output ++ left.postOrder, .operator op :: .paren '(' :: stack) := rfl
    have hstep3 : toRpnStep ops (.paren ')')
        (output ++ left.postOrder ++ right.postOrder, .operator op :: .paren '(' :: stack) =
        .ok (output ++ left.postOrder ++ right.postOrder ++ [.operator op], stack) := by
      simp only [toRpnStep, popUntilLeftParen]
      cases stack with
      | nil => rfl
      | cons top below =>
        cases top with
        | function name => exact absurd rfl (hstack name below)
        | number _ | identifier _ | operator _ | paren _ => rfl
    rw [h1, toRpnLoop, hstep1]
    simp only []
    rw [ihl _ _ _ (fun _ _ h => by cases h), toRpnLoop, hstep2]
    simp only []
    rw [ihr _ _ _ (fun _ _ h => by cases h), toRpnLoop, hstep3]
    simp [ExprTree.postOrder]
  | call name argument ih =>
    intro rest output stack _
    have h1 : (ExprTree.call name argument).infixTokens ++ rest =
        .function name :: .paren '(' :: (argument.infixTokens ++ (.paren ')' :: rest)) := by
      simp [ExprTree.infixTokens]
    have hstep1 : toRpnStep ops (.function name) (output, stack) =
        .ok (output, .function name :: stack) := rfl
    have hstep2 : toRpnStep ops (.paren '(') (output, .function name :: stack) =
        .ok (output, .paren '(' :: .function name :: stack) := rfl
    have hstep3 : toRpnStep ops (.paren ')')
        (output ++ argument.postOrder, .paren '(' :: .function name :: stack) =
        .ok (output ++ argument.postOrder ++ [.function name], stack) := rfl
    rw [h1, toRpnLoop, hstep1]
    simp only []
    rw [toRpnLoop, hstep2]
    simp only []
    rw [ih _ _ _ (fun _ _ h => by cases h), toRpnLoop, hstep3]
    simp [ExprTree.postOrder]

theorem postOrder_noParen {α : Type} (tree : ExprTree α) :
    ∀ t ∈ tree.postOrder, isParen t = false := by
  induction tree with
  | number value => intro t ht; simp only [ExprTree.postOrder, List.mem_singleton] at ht; subst ht; rfl
  | identifier name => intro t ht; simp only [ExprTree.postOrder, List.mem_singleton] at ht; subst ht; rfl
  | binary op left right ihl ihr =>
    intro t ht
    simp only [ExprTree.postOrder, List.mem_append, List.mem_singleton] at ht
    rcases ht with (ht | ht) | rfl
    · exact ihl t ht
    · exact ihr t ht
    · rfl
  | call name argument ih =>
    intro t ht
    simp only [ExprTree.postOrder, List.mem_append, List.mem_singleton] at ht
    rcases ht with ht | rfl
    · exact ih t ht
    · rfl

/-- C15. Shunting-yard correctness on fully parenthesised input.  For every
expression tree of Number and Identifier leaves, binary operators (any operator
symbol, `+ - * / ^` among them) and unary function applications, `toRpn`
applied to the tokens of the fully parenthesised rendering (`(l op r)`,
`f(arg)`) succeeds and returns exactly the post-order traversal. -/
theorem C15_toRpn_fully_parenthesised {α : Type} (ops : NumberOps α) (tree : ExprTree α) :
    toRpn ops tree.infixTokens = .ok tree.postOrder := by
  have h := toRpnLoop_infixTokens ops tree [] [] [] (fun _ _ h => by cases h)
  rw [List.append_nil] at h
  simp only [toRpn, h, toRpnLoop, List.nil_append]
  rfl

theorem applyOperator_eq_recursiveOperator {α : Type} (ops : NumberOps α) (op : Char)
    (left right : α) : applyOperator ops op left right = recursiveOperator ops op left right := by
  unfold applyOperator recursiveOperator OPERATORS
  by_cases h1 : op = '+'
  · simp only [if_pos h1]; rfl
  by_cases h2 : op = '-'
  · simp only [if_neg h1, if_pos h2]; rfl
  by_cases h3 : op = '*'
  · simp only [if_neg h1, if_neg h2, if_pos h3]; rfl
  by_cases h4 : op = '/'
  · simp only [if_neg h1, if_neg h2, if_neg h3, if_pos h4]
    split <;> rfl
  by_cases h5 : op = '^'
  · simp only [if_neg h1, if_neg h2, if_neg h3, if_neg h4, if_pos h5]; rfl
  · simp only [if_neg h1, if_neg h2, if_neg h3, if_neg h4, if_neg h5]

/-- The evaluator reads the post-order traversal of a tree, with any stack
below and any tokens after, as one push of the tree's recursive value, or
fails as the recursive evaluation fails. -/
theorem evaluateRpnLoop_postOrder {α : Type} (ops : NumberOps α) (scope : Scope α)
    (tree : ExprTree α) :
    ∀ (rest : List (Token α)) (stack : List α),
      evaluateRpnLoop ops scope (tree.postOrder ++ rest) stack =
        (tree.evalRecursive ops scope).bind fun value =>
          evaluateRpnLoop ops scope rest (value :: stack) := by
  induction tree with
  | number value => intro rest stack; rfl
  | identifier name =>
    intro rest stack
    simp only [ExprTree.postOrder, List.singleton_append, evaluateRpnLoop, evaluateRpnStep,
      ExprTree.evalRecursive]
    cases scope.lookup name <;> rfl
  | binary op left right ihl ihr =>
    intro rest stack
    have h1 : (ExprTree.binary op left right).postOrder ++ rest =
        left.postOrder ++ (right.postOrder ++ (.operator op :: rest)) := by
      simp [ExprTree.postOrder]
    rw [h1, ihl]
    simp only [ExprTree.evalRecursive]
    cases left.evalRecursive ops scope with
    | fail e => rfl
    | ok l =>
      simp only [Result.bind]
      rw [ihr]
      cases right.evalRecursive ops scope with
      | fail e => rfl
      | ok r =>
        simp only [Result.bind, evaluateRpnLoop, evaluateRpnStep,
          applyOperator_eq_recursiveOperator]
        cases recursiveOperator ops op l r <;> rfl
  | call name argument ih =>
    intro rest stack
    have h1 : (ExprTree.call name argument).postOrder ++ rest =
        argument.postOrder ++ (.function name :: rest) := by
      simp [ExprTree.postOrder]
    rw [h1, ih]
    simp only [ExprTree.evalRecursive]
    cases argument.evalRecursive ops scope with
    | fail e => rfl
    | ok value =>
      simp only [Result.bind, evaluateRpnLoop, evaluateRpnStep]
      cases applyFunction ops name value <;> rfl

/-- C16. Postfix evaluation agrees with recursive evaluation.  For every
expression tree and every scope, `evaluateRpn` applied to the post-order
traversal returns the value of the recursive evaluation, in which each operator
computes `left op right` (with the finiteness check on the result), and it
fails exactly as the recursive evaluation fails (unknown identifier, zero
divisor); in particular `8 3 -` is 5 and `1 0 /` fails. -/
theorem C16_evaluateRpn_postOrder {α : Type} (ops : NumberOps α) (scope : Scope α)
    (tree : ExprTree α) :
    evaluateRpn ops scope tree.postOrder = tree.evalRecursive ops scope ∧
    (∀ e, tree.evalRecursive ops scope = .fail e →
      evaluateRpn ops scope tree.postOrder = .fail e) ∧
    (∀ m : MathFunctions, evaluateRpn (exactOps m) []
      (ExprTree.binary '-' (.number (some 8)) (.number (some 3))).postOrder = .ok (some 5)) ∧
    (∀ m : MathFunctions, evaluateRpn (exactOps m) []
      (ExprTree.binary '/' (.number (some 1)) (.number (some 0))).postOrder =
        .fail (.error "Division by zero is not allowed.")) := by
  have h : evaluateRpn ops scope tree.postOrder = tree.evalRecursive ops scope := by
    have := evaluateRpnLoop_postOrder ops scope tree [] []
    rw [List.append_nil] at this
    simp only [evaluateRpn, this]
    cases tree.evalRecursive ops scope <;> rfl
  refine ⟨h, fun e he => by rw [h, he], ?_, ?_⟩
  · intro m; with_unfolding_all rfl
  · intro m; with_unfolding_all rfl


/-! ### Left associativity and the unary context -/

theorem isUnaryMinus_after_number {α : Type} (c : Char) (tokens : List (Token α)) (value : α) :
    isUnaryMinus c (tokens ++ [.number value]) = false := by
  by_cases h : c = '-'
  · subst h; rw [isUnaryMinus_concat]
  · exact isUnaryMinus_of_ne c _ h

theorem isDigitOrDot_of_isOperatorChar {c : Char} (h : isOperatorChar c = true) :
    isDigitOrDot c = false := by
  rcases isOperatorChar_cases h with rfl | rfl | rfl | rfl | rfl <;> decide

/-- Tokens of `a op₁ b op₂ c` for literals and any two operator characters. -/
theorem tokenize_two_operators {α : Type} (ops : NumberOps α) (a b c : String) (op₁ op₂ : Char)
    (ha : isNumericLiteral a = true) (hb : isNumericLiteral b = true)
    (hc : isNumericLiteral c = true) (h₁ : isOperatorChar op₁ = true)
    (h₂ : isOperatorChar op₂ = true) :
    tokenize ops (a ++ String.singleton op₁ ++ b ++ String.singleton op₂ ++ c) =
      .ok [.number (ops.parse a), .operator op₁, .number (ops.parse b), .operator op₂,
        .number (ops.parse c)] := by
  have hl : (a ++ String.singleton op₁ ++ b ++ String.singleton op₂ ++ c).toList =
      a.toList ++ (op₁ :: (b.toList ++ (op₂ :: (c.toList ++ [])))) := by
    simp [String.toList, String.singleton]
  rw [tokenize_eq, hl,
    tokenizeFrom_number ops _ _ _ ha (endsNumber_of_head _ _ (isDigitOrDot_of_isOperatorChar h₁)),
    tokenizeFrom_operator ops _ _ _ h₁,
    isUnaryMinus_after_number, if_neg (by decide),
    tokenizeFrom_number ops _ _ _ hb (endsNumber_of_head _ _ (isDigitOrDot_of_isOperatorChar h₂)),
    tokenizeFrom_operator ops _ _ _ h₂,
    isUnaryMinus_after_number, if_neg (by decide),
    tokenizeFrom_number ops _ [] _ hc rfl, tokenizeFrom_nil]
  rfl

/-- C17. Left-associativity.  For all numeric literals `a`, `b`, `c` and any two
operators of equal precedence, both from `+ -` or both from `* /`, `toRpn`
applied to the tokens of `a op₁ b op₂ c` yields `a b op₁ c op₂`, so the
expression evaluates as `(a op₁ b) op₂ c`; in exact arithmetic `8-3-2` gives 3
and `8/4*2` gives 4. -/
theorem C17_left_assoc {α : Type} (ops : NumberOps α) (scope : Scope α) (a b c : String)
    (op₁ op₂ : Char)
    (ha : isNumericLiteral a = true) (hb : isNumericLiteral b = true)
    (hc : isNumericLiteral c = true)
    (hops : (op₁ ∈ ['+', '-'] ∧ op₂ ∈ ['+', '-']) ∨ (op₁ ∈ ['*', '/'] ∧ op₂ ∈ ['*', '/'])) :
    (tokenize ops (a ++ String.singleton op₁ ++ b ++ String.singleton op₂ ++ c)).bind
        (toRpn ops) =
      .ok [.number (ops.parse a), .number (ops.parse b), .operator op₁, .number (ops.parse c),
        .operator op₂] ∧
    evaluate ops scope (a ++ String.singleton op₁ ++ b ++ String.singleton op₂ ++ c) =
      ((applyOperator ops op₁ (ops.parse a) (ops.parse b)).bind fun first =>
        applyOperator ops op₂ first (ops.parse c)) ∧
    (∀ m : MathFunctions, evaluate (exactOps m) [] "8-3-2" = .ok (some 3)) ∧
    (∀ m : MathFunctions, evaluate (exactOps m) [] "8/4*2" = .ok (some 4)) := by
  have h₁ : isOperatorChar op₁ = true := by
    simp only [List.mem_cons, List.mem_singleton, List.not_mem_nil, or_false] at hops
    rcases hops with ⟨h | h, _⟩ | ⟨h | h, _⟩ <;> subst h <;> decide
  have h₂ : isOperatorChar op₂ = true := by
    simp only [List.mem_cons, List.mem_singleton, List.not_mem_nil, or_false] at hops
    rcases hops with ⟨_, h | h⟩ | ⟨_, h | h⟩ <;> subst h <;> decide
  have htok := tokenize_two_operators ops a b c op₁ op₂ ha hb hc h₁ h₂
  have hrpn : toRpn ops [.number (ops.parse a), .operator op₁, .number (ops.parse b),
      .operator op₂, .number (ops.parse c)] =
      .ok [.number (ops.parse a), .number (ops.parse b), .operator op₁, .number (ops.parse c),
        .operator op₂] := by
    simp only [List.mem_cons, List.mem_singleton, List.not_mem_nil, or_false] at hops
    rcases hops with ⟨h | h, h' | h'⟩ | ⟨h | h, h' | h'⟩ <;> subst h <;> subst h' <;> rfl
  refine ⟨?_, ?_, ?_, ?_⟩
  · rw [htok]; exact hrpn
  · rw [evaluate_of_tokenize ops scope _ _ htok, hrpn]
    exact evaluateRpn_left ops scope _ _ _ op₁ op₂
  · intro m; with_unfolding_all rfl
  · intro m; with_unfolding_all rfl

theorem C17_left_assoc_witness :
    (tokenize (exactOps noMathFunctions)
        ("8" ++ String.singleton '-' ++ "3" ++ String.singleton '-' ++ "2")).bind
        (toRpn (exactOps noMathFunctions)) =
      .ok [.number ((exactOps noMathFunctions).parse "8"),
        .number ((exactOps noMathFunctions).parse "3"), .operator '-',
        .number ((exactOps noMathFunctions).parse "2"), .operator '-'] :=
  (C17_left_assoc (exactOps noMathFunctions) [] "8" "3" "2" '-' '-' (by decide) (by decide)
    (by decide) (Or.inl ⟨by decide, by decide⟩)).1

/-- The test of `isUnaryMinus` is the unary context of the specification. -/
theorem isUnaryMinus_iff {α : Type} (char : Char) (tokens : List (Token α)) :
    isUnaryMinus char tokens = true ↔ char = '-' ∧ unaryContext tokens := by
  by_cases hc : char = '-'
  · subst hc
    rcases List.eq_nil_or_concat tokens with rfl | ⟨before, prev, rfl⟩
    · exact ⟨fun _ => ⟨rfl, Or.inl rfl⟩, fun _ => rfl⟩
    · rw [List.concat_eq_append, isUnaryMinus_concat]
      constructor
      · intro h
        refine ⟨rfl, Or.inr ⟨before, prev, rfl, ?_⟩⟩
        cases prev with
        | operator op => exact Or.inl ⟨op, rfl⟩
        | function name => exact Or.inr (Or.inr ⟨name, rfl⟩)
        | paren value =>
          simp only [beq_iff_eq] at h
          subst h
          exact Or.inr (Or.inl rfl)
        | number _ | identifier _ => simp at h
      · rintro ⟨_, h | ⟨before', prev', heq, hprev⟩⟩
        · simp at h
        · obtain ⟨_, hlast⟩ := List.append_inj' heq rfl
          have hp : prev = prev' := List.head_eq_of_cons_eq hlast
          subst hp
          rcases hprev with ⟨op, rfl⟩ | rfl | ⟨name, rfl⟩ <;> rfl
  · rw [isUnaryMinus_of_ne char tokens hc]
    exact ⟨fun h => (by cases h), fun h => absurd h.1 hc⟩

/-- C18. Unary-context rule of the tokenizer.  At every iteration of the
scanning loop that reads an operator character, after any tokens, the step
emits the synthetic Number token `0` immediately before the Operator token
exactly when the character is `-` and no token precedes it or the preceding
token is an Operator, an opening parenthesis or a Function; in every other
case, so for `+ * / ^` and for a `-` after a Number, an Identifier or a closing
parenthesis, it emits the Operator token alone. -/
theorem C18_unary_context {α : Type} (ops : NumberOps α) (char : Char) (rest : List Char)
    (tokens : List (Token α)) (hchar : isOperatorChar char = true) :
    ((char = '-' ∧ unaryContext tokens) →
      tokenizeStep ops char rest tokens =
        .ok (rest, tokens ++ [.number ops.zero] ++ [.operator char])) ∧
    (¬ (char = '-' ∧ unaryContext tokens) →
      tokenizeStep ops char rest tokens = .ok (rest, tokens ++ [.operator char])) ∧
    (∀ prev : Token α, (isOperand prev = true ∨ prev = .paren ')') →
      tokenizeStep ops char rest (tokens ++ [prev]) =
        .ok (rest, tokens ++ [prev] ++ [.operator char])) ∧
    tokenize ops "-5+3" =
      .ok [.number ops.zero, .operator '-', .number (ops.parse "5"), .operator '+',
        .number (ops.parse "3")] ∧
    tokenize ops "2*(-3)-sin-1" =
      .ok [.number (ops.parse "2"), .operator '*', .paren '(', .number ops.zero,
        .operator '-', .number (ops.parse "3"), .paren ')', .operator '-', .function "sin",
        .number ops.zero, .operator '-', .number (ops.parse "1")] := by
  have h3 : isWhitespace char = false ∧ isDigitOrDot char = false ∧ isLetter char = false := by
    rcases isOperatorChar_cases hchar with rfl | rfl | rfl | rfl | rfl <;> decide
  have hstep : ∀ toks : List (Token α), tokenizeStep ops char rest toks =
      tokenizeOperator ops char rest toks := by
    intro toks
    simp only [tokenizeStep, h3.1, h3.2.1, h3.2.2, hchar, Bool.false_eq_true, if_false, if_true]
  refine ⟨?_, ?_, ?_, rfl, rfl⟩
  · intro h
    rw [hstep, tokenizeOperator, if_pos ((isUnaryMinus_iff char tokens).mpr h)]
  · intro h
    rw [hstep, tokenizeOperator, if_neg (fun hu => h ((isUnaryMinus_iff char tokens).mp hu))]
  · intro prev hprev
    have hnot : isUnaryMinus char (tokens ++ [prev]) = false := by
      by_cases hc : char = '-'
      · subst hc
        rw [isUnaryMinus_concat]
        rcases hprev with h | rfl
        · cases prev <;> simp_all [isOperand]
        · rfl
      · exact isUnaryMinus_of_ne char _ hc
    rw [hstep, tokenizeOperator, hnot]
    rfl

theorem C18_unary_context_witness :
    tokenizeStep (exactOps noMathFunctions) '-' ['2'] [.number (some 3), .operator '*'] =
      .ok (['2'], [.number (some 3), .operator '*'] ++
        [.number (exactOps noMathFunctions).zero] ++ [.operator '-']) :=
  (C18_unary_context (exactOps noMathFunctions) '-' ['2'] [.number (some 3), .operator '*']
    (by decide)).1 ⟨rfl, Or.inr ⟨[.number (some 3)], .operator '*', rfl, Or.inl ⟨'*', rfl⟩⟩⟩


/-! ### Letter case -/

theorem isLetter_iff {c : Char} :
    isLetter c = true ↔ (97 ≤ c.toNat ∧ c.toNat ≤ 122) ∨ (65 ≤ c.toNat ∧ c.toNat ≤ 90) := by
  simp [isLetter]

/-- Characters with the same lower case are equal or are both letters. -/
theorem toLower_eq_cases {c c' : Char} (h : Char.toLower c = Char.toLower c') :
    c = c' ∨ (isLetter c = true ∧ isLetter c' = true) := by
  have hnat : (Char.toLower c).toNat = (Char.toLower c').toNat := by rw [h]
  by_cases hu : 65 ≤ c.toNat ∧ c.toNat ≤ 90
  · by_cases hu' : 65 ≤ c'.toNat ∧ c'.toNat ≤ 90
    · rw [toLower_of_upper c hu, toLower_of_upper c' hu'] at hnat
      left
      have : c.toNat = c'.toNat := by omega
      rw [← Char.ofNat_toNat c, ← Char.ofNat_toNat c', this]
    · right
      rw [toLower_of_upper c hu, toLower_of_not_upper c' hu'] at hnat
      exact ⟨isLetter_iff.mpr (Or.inr hu), isLetter_iff.mpr (Or.inl (by omega))⟩
  · by_cases hu' : 65 ≤ c'.toNat ∧ c'.toNat ≤ 90
    · right
      rw [toLower_of_not_upper c hu, toLower_of_upper c' hu'] at hnat
      exact ⟨isLetter_iff.mpr (Or.inl (by omega)), isLetter_iff.mpr (Or.inr hu')⟩
    · left
      rw [toLower_of_not_upper c hu, toLower_of_not_upper c' hu'] at h
      exact h

theorem isDigit_of_isLetter {c : Char} (h : isLetter c = true) : isDigit c = false := by
  have := isDigitOrDot_of_isLetter h
  simp only [isDigitOrDot, Bool.or_eq_false_iff] at this
  exact this.1

theorem ne_dot_of_isLetter {c : Char} (h : isLetter c = true) : c ≠ '.' := by
  rintro rfl
  revert h
  decide

theorem isIdentifierChar_of_isLetter {c : Char} (h : isLetter c = true) :
    isIdentifierChar c = true := by
  simp [isIdentifierChar, h]

theorem isIdentifierChar_congr {c c' : Char} (h : Char.toLower c = Char.toLower c') :
    isIdentifierChar c = isIdentifierChar c' := by
  rcases toLower_eq_cases h with rfl | ⟨h1, h2⟩
  · rfl
  · rw [isIdentifierChar_of_isLetter h1, isIdentifierChar_of_isLetter h2]

theorem scanNumber_case (rest : List Char) :
    ∀ (rest' number : List Char) (dotCount : Nat),
      rest.map Char.toLower = rest'.map Char.toLower →
      (scanNumber number dotCount rest).1 = (scanNumber number dotCount rest').1 ∧
      (scanNumber number dotCount rest).2.map Char.toLower =
        (scanNumber number dotCount rest').2.map Char.toLower := by
  induction rest with
  | nil =>
    intro rest' number dotCount h
    cases rest' with
    | nil => exact ⟨rfl, rfl⟩
    | cons b l' => simp at h
  | cons a l ih =>
    intro rest' number dotCount h
    cases rest' with
    | nil => simp at h
    | cons b l' =>
      simp only [List.map_cons, List.cons.injEq] at h
      obtain ⟨hab, hl⟩ := h
      rcases toLower_eq_cases hab with rfl | ⟨ha, hb⟩
      · simp only [scanNumber]
        split
        · split
          · simp [hl]
          · exact ih l' _ _ hl
        · split
          · exact ih l' _ _ hl
          · simp [hl]
      · simp only [scanNumber, if_neg (ne_dot_of_isLetter ha), if_neg (ne_dot_of_isLetter hb),
          isDigit_of_isLetter ha, isDigit_of_isLetter hb, Bool.false_eq_true, if_false]
        simp [hab, hl]

theorem scanIdentifier_case (rest : List Char) :
    ∀ (rest' identifier identifier' : List Char),
      rest.map Char.toLower = rest'.map Char.toLower →
      identifier.map Char.toLower = identifier'.map Char.toLower →
      (scanIdentifier identifier rest).1.map Char.toLower =
        (scanIdentifier identifier' rest').1.map Char.toLower ∧
      (scanIdentifier identifier rest).2.map Char.toLower =
        (scanIdentifier identifier' rest').2.map Char.toLower := by
  induction rest with
  | nil =>
    intro rest' identifier identifier' h hid
    cases rest' with
    | nil => exact ⟨hid, rfl⟩
    | cons b l' => simp at h
  | cons a l ih =>
    intro rest' identifier identifier' h hid
    cases rest' with
    | nil => simp at h
    | cons b l' =>
      simp only [List.map_cons, List.cons.injEq] at h
      obtain ⟨hab, hl⟩ := h
      simp only [scanIdentifier, ← isIdentifierChar_congr hab]
      split
      · exact ih l' _ _ hl (by simp [hid, hab])
      · exact ⟨hid, by simp [hab, hl]⟩

/-- An iteration of the scanning loop does the same on inputs that differ in
letter case: the same failure, or the same tokens with what is left to read
again differing in letter case only. -/
theorem tokenizeStep_case {α : Type} (ops : NumberOps α) (c c' : Char) (rest rest' : List Char)
    (tokens : List (Token α)) (hc : Char.toLower c = Char.toLower c')
    (hrest : rest.map Char.toLower = rest'.map Char.toLower) :
    (∃ e, tokenizeStep ops c rest tokens = .fail e ∧
      tokenizeStep ops c' rest' tokens = .fail e) ∨
    (∃ r r' tokens', tokenizeStep ops c rest tokens = .ok (r, tokens') ∧
      tokenizeStep ops c' rest' tokens = .ok (r', tokens') ∧
      r.map Char.toLower = r'.map Char.toLower) := by
  rcases toLower_eq_cases hc with rfl | ⟨h1, h2⟩
  · unfold tokenizeStep
    split
    · exact Or.inr ⟨_, _, _, rfl, rfl, hrest⟩
    · split
      · unfold tokenizeNumber
        obtain ⟨e1, e2⟩ := scanNumber_case rest rest' [c] (if c = '.' then 1 else 0) hrest
        generalize (if c = '.' then 1 else 0) = dotCount at e1 e2
        rw [← e1]
        by_cases hdot : (scanNumber [c] dotCount rest).1 = ['.']
        · rw [if_pos hdot, if_pos hdot]
          exact Or.inl ⟨_, rfl, rfl⟩
        · rw [if_neg hdot, if_neg hdot]
          exact Or.inr ⟨_, _, _, rfl, rfl, e2⟩
      · split
        · unfold tokenizeIdentifier
          obtain ⟨e1, e2⟩ := scanIdentifier_case rest rest' [c] [c] hrest rfl
          have hlow : toLowerCase (scanIdentifier [c] rest).1 =
              toLowerCase (scanIdentifier [c] rest').1 := by
            simp only [toLowerCase, e1]
          rw [← hlow]
          split
          · exact Or.inr ⟨_, _, _, rfl, rfl, e2⟩
          · exact Or.inr ⟨_, _, _, rfl, rfl, e2⟩
        · split
          · unfold tokenizeOperator
            split
            · exact Or.inr ⟨_, _, _, rfl, rfl, hrest⟩
            · exact Or.inr ⟨_, _, _, rfl, rfl, hrest⟩
          · split
            · exact Or.inr ⟨_, _, _, rfl, rfl, hrest⟩
            · exact Or.inl ⟨_, rfl, rfl⟩
  · obtain ⟨e1, e2⟩ := scanIdentifier_case rest rest' [c] [c'] hrest (by simp [hc])
    have hlow : toLowerCase (scanIdentifier [c] rest).1 =
        toLowerCase (scanIdentifier [c'] rest').1 := by
      simp only [toLowerCase, e1]
    simp only [tokenizeStep, isWhitespace_of_isLetter h1, isWhitespace_of_isLetter h2,
      isDigitOrDot_of_isLetter h1, isDigitOrDot_of_isLetter h2, h1, h2, Bool.false_eq_true,
      if_false, if_true, tokenizeIdentifier, ← hlow]
    split
    · exact Or.inr ⟨_, _, _, rfl, rfl, e2⟩
    · exact Or.inr ⟨_, _, _, rfl, rfl, e2⟩

theorem tokenizeLoop_case {α : Type} (ops : NumberOps α) (fuel : Nat) :
    ∀ (rest rest' : List Char) (tokens : List (Token α)),
      rest.map Char.toLower = rest'.map Char.toLower →
      tokenizeLoop ops fuel rest tokens = tokenizeLoop ops fuel rest' tokens := by
  induction fuel with
  | zero =>
    intro rest rest' tokens h
    cases rest with
    | nil =>
      cases rest' with
      | nil => rfl
      | cons b l' => simp at h
    | cons a l =>
      cases rest' with
      | nil => simp at h
      | cons b l' => rfl
  | succ fuel ih =>
    intro rest rest' tokens h
    cases rest with
    | nil =>
      cases rest' with
      | nil => rfl
      | cons b l' => simp at h
    | cons a l =>
      cases rest' with
      | nil => simp at h
      | cons b l' =>
        simp only [List.map_cons, List.cons.injEq] at h
        rw [tokenizeLoop_succ, tokenizeLoop_succ]
        rcases tokenizeStep_case ops a b l l' tokens h.1 h.2 with
          ⟨e, h1, h2⟩ | ⟨r, r', tokens', h1, h2, hr⟩
        · rw [h1, h2]
        · rw [h1, h2]
          exact ih r r' tokens' hr

/-- C11. Case-insensitivity.  For every input string `s` and every string `t`
that differs from `s` only in the case of letters, `tokenize` gives the same
outcome on both, the same failure or the same token sequence, so the
evaluation does not depend on letter case; `PI*2` tokenises as `pi*2` and
`SQRT(4)` as `sqrt(4)`. -/
theorem C11_case_insensitive {α : Type} (ops : NumberOps α) (s t : String)
    (h : sameUpToCase s t) :
    tokenize ops s = tokenize ops t ∧
    (∀ scope : Scope α, evaluate ops scope s = evaluate ops scope t) ∧
    tokenize ops "PI*2" = tokenize ops "pi*2" ∧
    tokenize ops "SQRT(4)" = tokenize ops "sqrt(4)" := by
  have hlen : s.length = t.length := by
    have := congrArg List.length h
    simpa using this
  have htok : tokenize ops s = tokenize ops t := by
    unfold tokenize
    rw [hlen]
    exact tokenizeLoop_case ops _ _ _ _ h
  exact ⟨htok, fun scope => by simp only [evaluate, htok], rfl, rfl⟩

theorem C11_case_insensitive_witness :
    tokenize (exactOps noMathFunctions) "Sqrt(X1)+pI" =
      tokenize (exactOps noMathFunctions) "sQRT(x1)+Pi" :=
  (C11_case_insensitive (exactOps noMathFunctions) "Sqrt(X1)+pI" "sQRT(x1)+Pi"
    (by unfold sameUpToCase; decide)).1


/-! ### Inputs that are not well-formed infix -/

theorem tokenizeFrom_whitespace {α : Type} (ops : NumberOps α) (c : Char) (rest : List Char)
    (tokens : List (Token α)) (hc : isWhitespace c = true) :
    tokenizeFrom ops (c :: rest) tokens = tokenizeFrom ops rest tokens := by
  unfold tokenizeFrom
  rw [List.length_cons, tokenizeLoop_cons ops _ c rest tokens (Nat.le_refl _)]
  simp only [tokenizeStep, hc, if_true, Result.bind]
  exact tokenizeLoop_fuel_eq ops rest.length rest _ _ _ (Nat.le_refl _)
    (by simp) (Nat.le_refl _)

/-- A `.` that no digit follows is read as the lone `.` and rejected. -/
theorem tokenizeFrom_lone_dot {α : Type} (ops : NumberOps α) (rest : List Char)
    (tokens : List (Token α)) (hrest : ∀ d r, rest = d :: r → isDigit d = false) :
    tokenizeFrom ops ('.' :: rest) tokens = .fail (.error "Invalid number format.") := by
  have hscan : scanNumber ['.'] 1 rest = (['.'], rest) := by
    cases rest with
    | nil => rfl
    | cons d r =>
      simp only [scanNumber, hrest d r rfl, Bool.false_eq_true, if_false]
      split <;> rfl
  unfold tokenizeFrom
  rw [List.length_cons, tokenizeLoop_cons ops _ '.' rest tokens (Nat.le_refl _)]
  have h1 : isWhitespace '.' = false := by decide
  have h2 : isDigitOrDot '.' = true := by decide
  simp only [tokenizeStep, h1, h2, tokenizeNumber, if_true, Bool.false_eq_true, if_false, hscan]
  rfl

/-- C12 as stated fails: `1..2` is tokenized, into the two Number tokens `1.`
and `.2`, and `+1..2` evaluates to a number, 1.2. -/
theorem C12_double_dot_counterexample :
    tokenize (exactOps noMathFunctions) "1..2" =
      .ok [.number (some 1), .number (some (1 / 5))] ∧
    evaluate (exactOps noMathFunctions) [] "+1..2" = .ok (some (6 / 5)) := by
  constructor <;> with_unfolding_all decide

/-- C12 (amended). A second `.` that immediately follows a numeric run already
containing a `.` ends that run and starts a new literal.  When digits follow
it, the scan produces two consecutive Number tokens and goes on; when no digit
follows it, the scan fails with "Invalid number format.".  So `1..2` is
tokenized (and fails only in `evaluateRpn`, with "Incomplete expression."),
`+1..2` evaluates to 1.2, and `1...2` and `1..` fail in `tokenize`. -/
theorem C12_double_dot {α : Type} (ops : NumberOps α) (text digits rest : List Char)
    (tokens : List (Token α)) (htext : numericRun text = true) (hdot : '.' ∈ text) :
    (digits ≠ [] → (∀ d ∈ digits, isDigit d = true) →
      endsNumber ('.' :: digits) rest = true →
      tokenizeFrom ops (text ++ ('.' :: (digits ++ rest))) tokens =
        tokenizeFrom ops rest
          (tokens ++ [.number (ops.parse (String.mk text)),
            .number (ops.parse (String.mk ('.' :: digits)))])) ∧
    ((∀ d r, rest = d :: r → isDigit d = false) →
      tokenizeFrom ops (text ++ ('.' :: rest)) tokens =
        .fail (.error "Invalid number format.")) ∧
    tokenize ops "1..2" = .ok [.number (ops.parse "1."), .number (ops.parse ".2")] ∧
    tokenize ops "1...2" = .fail (.error "Invalid number format.") ∧
    tokenize ops "1.." = .fail (.error "Invalid number format.") ∧
    (∀ m : MathFunctions, evaluate (exactOps m) [] "1..2" =
      .fail (.error "Incomplete expression.")) ∧
    (∀ m : MathFunctions, evaluate (exactOps m) [] "+1..2" = .ok (some (6 / 5))) := by
  have hcount : 0 < text.count '.' := List.count_pos_iff.mpr hdot
  have hfirst : ∀ r : List Char, tokenizeFrom ops (text ++ ('.' :: r)) tokens =
      tokenizeFrom ops ('.' :: r) (tokens ++ [.number (ops.parse (String.mk text))]) := by
    intro r
    refine tokenizeFrom_number ops text ('.' :: r) tokens htext ?_
    simp [endsNumber, hcount, isDigit]
  refine ⟨?_, ?_, rfl, rfl, rfl, ?_, ?_⟩
  · intro hne hdigits hend
    have hrun : numericRun ('.' :: digits) = true := by
      have hnodot : digits.count '.' = 0 := by
        rw [List.count_eq_zero]
        intro hmem
        have := hdigits '.' hmem
        revert this
        decide
      have hall : ∀ x ∈ digits, isDigitOrDot x = true := by
        intro x hx
        simp [isDigitOrDot, hdigits x hx]
      cases digits with
      | nil => exact absurd rfl hne
      | cons d ds =>
        simp only [numericRun, List.isEmpty_cons, Bool.not_false, List.all_cons,
          List.count_cons_self, hnodot, Bool.true_and, Bool.and_eq_true, List.all_eq_true,
          decide_eq_true_eq, bne_iff_ne, ne_eq]
        exact ⟨⟨⟨by decide, hall d (List.mem_cons_self _ _),
          fun x hx => hall x (List.mem_cons_of_mem _ hx)⟩, by omega⟩, by simp⟩
    rw [hfirst, ← List.cons_append,
      tokenizeFrom_number ops ('.' :: digits) rest _ hrun hend]
    simp
  · intro hrest
    rw [hfirst]
    exact tokenizeFrom_lone_dot ops rest _ hrest
  · intro m; with_unfolding_all rfl
  · intro m; with_unfolding_all rfl

theorem C12_double_dot_witness :
    tokenizeFrom (exactOps noMathFunctions) (['1', '.'] ++ ('.' :: (['2'] ++ ['+', '3']))) [] =
      tokenizeFrom (exactOps noMathFunctions) ['+', '3']
        ([] ++ [.number ((exactOps noMathFunctions).parse (String.mk ['1', '.'])),
          .number ((exactOps noMathFunctions).parse (String.mk ('.' :: ['2'])))]) :=
  (C12_double_dot (exactOps noMathFunctions) ['1', '.'] ['2'] ['+', '3'] [] (by decide)
    (by decide)).1 (by decide) (by decide) (by decide)

theorem endsNumber_space {text : List Char} (rest : List Char) :
    endsNumber text (' ' :: rest) = true :=
  endsNumber_of_head ' ' rest (by decide)

/-- Tokens of `a b +`. -/
theorem tokenize_operands_then_plus {α : Type} (ops : NumberOps α) (a b : String)
    (ha : isNumericLiteral a = true) (hb : isNumericLiteral b = true) :
    tokenize ops (a ++ " " ++ b ++ " +") =
      .ok [.number (ops.parse a), .number (ops.parse b), .operator '+'] := by
  have hl : (a ++ " " ++ b ++ " +").toList = a.toList ++ (' ' :: (b.toList ++ [' ', '+'])) := by
    simp [String.toList]
  rw [tokenize_eq, hl,
    tokenizeFrom_number ops _ _ _ ha (endsNumber_space _),
    tokenizeFrom_whitespace ops _ _ _ (by decide),
    tokenizeFrom_number ops _ _ _ hb (endsNumber_space _),
    tokenizeFrom_whitespace ops _ _ _ (by decide),
    tokenizeFrom_operator ops _ _ _ (by decide),
    isUnaryMinus_of_ne _ _ (by decide), if_neg (by decide), tokenizeFrom_nil]
  rfl

/-- Tokens of `+ a b`. -/
theorem tokenize_plus_then_operands {α : Type} (ops : NumberOps α) (a b : String)
    (ha : isNumericLiteral a = true) (hb : isNumericLiteral b = true) :
    tokenize ops ("+ " ++ a ++ " " ++ b) =
      .ok [.operator '+', .number (ops.parse a), .number (ops.parse b)] := by
  have hl : ("+ " ++ a ++ " " ++ b).toList =
      '+' :: ' ' :: (a.toList ++ (' ' :: (b.toList ++ []))) := by
    simp [String.toList]
  rw [tokenize_eq, hl,
    tokenizeFrom_operator ops _ _ _ (by decide),
    isUnaryMinus_of_ne _ _ (by decide), if_neg (by decide),
    tokenizeFrom_whitespace ops _ _ _ (by decide),
    tokenizeFrom_number ops _ _ _ ha (endsNumber_space _),
    tokenizeFrom_whitespace ops _ _ _ (by decide),
    tokenizeFrom_number ops _ [] _ hb rfl, tokenizeFrom_nil]
  rfl

/-- Tokens of `a b`. -/
theorem tokenize_two_operands {α : Type} (ops : NumberOps α) (a b : String)
    (ha : isNumericLiteral a = true) (hb : isNumericLiteral b = true) :
    tokenize ops (a ++ " " ++ b) = .ok [.number (ops.parse a), .number (ops.parse b)] := by
  have hl : (a ++ " " ++ b).toList = a.toList ++ (' ' :: (b.toList ++ [])) := by
    simp [String.toList]
  rw [tokenize_eq, hl,
    tokenizeFrom_number ops _ _ _ ha (endsNumber_space _),
    tokenizeFrom_whitespace ops _ _ _ (by decide),
    tokenizeFrom_number ops _ [] _ hb rfl, tokenizeFrom_nil]
  rfl

/-- Tokens of `a+`. -/
theorem tokenize_operand_plus {α : Type} (ops : NumberOps α) (a : String)
    (ha : isNumericLiteral a = true) :
    tokenize ops (a ++ "+") = .ok [.number (ops.parse a), .operator '+'] := by
  have hl : (a ++ "+").toList = a.toList ++ ['+'] := by
    simp [String.toList]
  rw [tokenize_eq, hl,
    tokenizeFrom_number ops _ _ _ ha (endsNumber_of_head _ _ (by decide)),
    tokenizeFrom_operator ops _ _ _ (by decide),
    isUnaryMinus_of_ne _ _ (by decide), if_neg (by decide), tokenizeFrom_nil]
  rfl

/-- C19 as stated fails: `1 2 +` and `+ 1 2` are not well-formed infix, yet
both are evaluated, to 3. -/
theorem C19_adjacency_counterexample :
    evaluate (exactOps noMathFunctions) [] "1 2 +" = .ok (some 3) ∧
    evaluate (exactOps noMathFunctions) [] "+ 1 2" = .ok (some 3) := by
  constructor <;> with_unfolding_all decide

/-- C19 (amended). The Converter and the Evaluator do not check the adjacency
of operands and operators: `toRpn` checks the balance of parentheses only and
`evaluateRpn` checks the number of values on its stack only.  For all numeric
literals `a`, `b` the inputs `a b +` and `+ a b` are evaluated, to `a + b`,
while `a b` is rejected with "Incomplete expression." and `a+` with
"Incomplete expression: missing values.". -/
theorem C19_operand_counts {α : Type} (ops : NumberOps α) (scope : Scope α) (a b : String)
    (ha : isNumericLiteral a = true) (hb : isNumericLiteral b = true) :
    evaluate ops scope (a ++ " " ++ b ++ " +") =
      validate ops "Invalid mathematical result." (ops.add (ops.parse a) (ops.parse b)) ∧
    evaluate ops scope ("+ " ++ a ++ " " ++ b) =
      validate ops "Invalid mathematical result." (ops.add (ops.parse a) (ops.parse b)) ∧
    evaluate ops scope (a ++ " " ++ b) = .fail (.error "Incomplete expression.") ∧
    evaluate ops scope (a ++ "+") = .fail (.error "Incomplete expression: missing values.") ∧
    (∀ tokens : List (Token α), operatorsKnown ops tokens → parensBalanced tokens = true →
      ∃ rpn, toRpn ops tokens = .ok rpn) := by
  have hrpn : ∀ x y : α, evaluateRpn ops scope [.number x, .number y, .operator '+'] =
      validate ops "Invalid mathematical result." (ops.add x y) := by
    intro x y
    simp only [evaluateRpn, evaluateRpnLoop, evaluateRpnStep, applyOperator_add]
    cases validate ops "Invalid mathematical result." (ops.add x y) <;> rfl
  refine ⟨?_, ?_, ?_, ?_, fun tokens hk hb => (toRpn_balanced ops tokens hk).1 hb⟩
  · rw [evaluate_of_tokenize ops scope _ _ (tokenize_operands_then_plus ops a b ha hb)]
    exact hrpn _ _
  · rw [evaluate_of_tokenize ops scope _ _ (tokenize_plus_then_operands ops a b ha hb)]
    exact hrpn _ _
  · rw [evaluate_of_tokenize ops scope _ _ (tokenize_two_operands ops a b ha hb)]
    rfl
  · rw [evaluate_of_tokenize ops scope _ _ (tokenize_operand_plus ops a ha)]
    rfl

theorem C19_operand_counts_witness :
    evaluate (exactOps noMathFunctions) [] ("1" ++ " " ++ "2" ++ " +") =
      validate (exactOps noMathFunctions) "Invalid mathematical result."
        ((exactOps noMathFunctions).add ((exactOps noMathFunctions).parse "1")
          ((exactOps noMathFunctions).parse "2")) :=
  (C19_operand_counts (exactOps noMathFunctions) [] "1" "2" (by decide) (by decide)).1


/-! ### The variable store and the history -/

theorem lookup_eq_none_of_keys {α : Type} (name : String) (entries : List (String × α))
    (h : ∀ entry ∈ entries, entry.1 ≠ name) : entries.lookup name = none := by
  induction entries with
  | nil => rfl
  | cons entry entries ih =>
    obtain ⟨key, value⟩ := entry
    have hne : key ≠ name := h (key, value) (List.mem_cons_self _ _)
    have hbeq : (name == key) = false := beq_eq_false_iff_ne.mpr (fun h' => hne h'.symm)
    simp only [List.lookup, hbeq]
    exact ih (fun entry hentry => h entry (List.mem_cons_of_mem _ hentry))

theorem lookup_append_of_none {α : Type} (name : String) (front back : List (String × α))
    (h : front.lookup name = none) : (front ++ back).lookup name = back.lookup name := by
  induction front with
  | nil => rfl
  | cons entry front ih =>
    obtain ⟨key, value⟩ := entry
    simp only [List.cons_append, List.lookup] at h ⊢
    cases hk : name == key with
    | true => rw [hk] at h; cases h
    | false => rw [hk] at h; exact ih h

theorem mem_setProperty {α : Type} (name : String) (value : α) (entries : List (String × α)) :
    ∀ entry ∈ setProperty name value entries, entry = (name, value) ∨ entry ∈ entries := by
  induction entries with
  | nil =>
    intro entry h
    simp only [setProperty, List.mem_singleton] at h
    exact Or.inl h
  | cons first entries ih =>
    intro entry h
    simp only [setProperty] at h
    split at h
    · rcases List.mem_cons.mp h with h | h
      · exact Or.inl h
      · exact Or.inr (List.mem_cons_of_mem _ h)
    · rcases List.mem_cons.mp h with h | h
      · exact Or.inr (h ▸ List.mem_cons_self _ _)
      · rcases ih entry h with h | h
        · exact Or.inl h
        · exact Or.inr (List.mem_cons_of_mem _ h)

theorem lookup_constants_isSome {α : Type} (ops : NumberOps α) (name : String) :
    ((CONSTANTS ops).lookup name).isSome = true ↔ name = "pi" ∨ name = "e" := by
  by_cases h1 : name = "pi"
  · subst h1; exact ⟨fun _ => Or.inl rfl, fun _ => rfl⟩
  by_cases h2 : name = "e"
  · subst h2; exact ⟨fun _ => Or.inr rfl, fun _ => rfl⟩
  simp only [CONSTANTS, List.lookup, beq_eq_false_iff_ne.mpr h1, beq_eq_false_iff_ne.mpr h2,
    h1, h2, or_self, Option.isSome_none, Bool.false_eq_true]

/-- A submission never stores a key that names a constant. -/
theorem handleVariableSubmit_noConstantKey {α : Type} (text : TextOps α) (ops : NumberOps α)
    (nameInput valueInput : String) (state : State α) (h : noConstantKey state.vars) :
    noConstantKey (handleVariableSubmit text ops nameInput valueInput state).1.vars := by
  unfold handleVariableSubmit
  split
  · exact h
  · split
    · exact h
    · split
      · exact h
      · rename_i hconst
        split
        · exact h
        · intro entry hentry
          rcases mem_setProperty _ _ _ entry hentry with rfl | hmem
          · have hn : ¬ (text.toLowerCase (trim nameInput) = "pi" ∨
                text.toLowerCase (trim nameInput) = "e") :=
              fun hc => hconst ((lookup_constants_isSome ops _).mpr hc)
            exact ⟨fun h1 => hn (Or.inl h1), fun h2 => hn (Or.inr h2)⟩
          · exact h entry hmem

/-- An evaluation leaves the variable store as it is. -/
theorem evaluateExpression_variables {α : Type} (text : TextOps α) (ops : NumberOps α)
    (input : String) (state : State α) :
    (evaluateExpression text ops input state).1.vars = state.vars := by
  unfold evaluateExpression
  split
  · rfl
  · split <;> rfl

theorem step_noConstantKey {α : Type} (text : TextOps α) (ops : NumberOps α) (state : State α)
    (action : Action) (h : noConstantKey state.vars) :
    noConstantKey (step text ops state action).vars := by
  cases action with
  | submitVariable nameInput valueInput =>
    exact handleVariableSubmit_noConstantKey text ops nameInput valueInput state h
  | removeVariable name =>
    intro entry hentry
    exact h entry (List.mem_of_mem_filter hentry)
  | evaluate input =>
    show noConstantKey (evaluateExpression text ops input state).1.vars
    rw [evaluateExpression_variables]
    exact h

theorem run_noConstantKey {α : Type} (text : TextOps α) (ops : NumberOps α)
    (actions : List Action) :
    ∀ state : State α, noConstantKey state.vars →
      noConstantKey (run text ops state actions).vars := by
  induction actions with
  | nil => intro state h; exact h
  | cons action actions ih =>
    intro state h
    exact ih (step text ops state action) (step_noConstantKey text ops state action h)

/-- C13. Constants are never overridden.  Starting from the empty variable
store, after any sequence of variable submissions, removals and evaluations,
`state.variables` has no key equal to `pi` or `e`; hence the scope built as the
constants overlaid by the variables maps `pi` to 3.1415 and `e` to 2.7182. -/
theorem C13_constants_not_overridden {α : Type} (text : TextOps α) (ops : NumberOps α)
    (actions : List Action) :
    noConstantKey (run text ops initialState actions).vars ∧
    (run text ops initialState actions).vars.lookup "pi" = none ∧
    (run text ops initialState actions).vars.lookup "e" = none ∧
    (buildScope ops (run text ops initialState actions).vars).lookup "pi" =
      some (ops.parse "3.1415") ∧
    (buildScope ops (run text ops initialState actions).vars).lookup "e" =
      some (ops.parse "2.7182") ∧
    (∀ m : MathFunctions, (exactOps m).parse "3.1415" = some (6283 / 2000) ∧
      (exactOps m).parse "2.7182" = some (13591 / 5000)) := by
  have hinv : noConstantKey (run text ops (initialState : State α) actions).vars :=
    run_noConstantKey text ops actions initialState (fun _ h => (by cases h))
  have hpi := lookup_eq_none_of_keys "pi" _ (fun entry hentry => (hinv entry hentry).1)
  have he := lookup_eq_none_of_keys "e" _ (fun entry hentry => (hinv entry hentry).2)
  refine ⟨hinv, hpi, he, ?_, ?_, ?_⟩
  · rw [buildScope, lookup_append_of_none _ _ _ hpi]; rfl
  · rw [buildScope, lookup_append_of_none _ _ _ he]; rfl
  · intro m
    constructor <;> with_unfolding_all rfl

/-- C14. Evaluation does not disturb state.  For every input and every state,
`evaluateExpression` leaves `state.variables` unchanged; when the input is
empty after trimming or a stage of the pipeline fails, `state.history` is
unchanged too; and when the evaluation succeeds exactly one entry, the trimmed
expression with its formatted result, is added at the front of
`state.history`. -/
theorem C14_evaluation_frame {α : Type} (text : TextOps α) (ops : NumberOps α) (input : String)
    (state : State α) :
    (evaluateExpression text ops input state).1.vars = state.vars ∧
    (trim input = "" → (evaluateExpression text ops input state).1.history = state.history) ∧
    (∀ e, evaluate ops (buildScope ops state.vars) (trim input) = .fail e →
      (evaluateExpression text ops input state).1 = state) ∧
    (∀ value, trim input ≠ "" →
      evaluate ops (buildScope ops state.vars) (trim input) = .ok value →
      (evaluateExpression text ops input state).1.history =
        (trim input, text.toFixed4 value) :: state.history) ∧
    (∀ m : MathFunctions, ∀ shown : TextOps (Option ℚ),
      (evaluateExpression shown (exactOps m) "  2+3*4 " ⟨[("x", some 1)], []⟩).1 =
        ⟨[("x", some 1)], [("2+3*4", shown.toFixed4 (some 14))]⟩ ∧
      (evaluateExpression shown (exactOps m) " (1+2 " ⟨[("x", some 1)], []⟩) =
        (⟨[("x", some 1)], []⟩, ⟨"Mismatched parentheses.", true⟩) ∧
      (evaluateExpression shown (exactOps m) "   " ⟨[("x", some 1)], []⟩) =
        (⟨[("x", some 1)], []⟩, ⟨"Please enter an expression first.", true⟩)) := by
  refine ⟨evaluateExpression_variables text ops input state, ?_, ?_, ?_, ?_⟩
  · intro h
    unfold evaluateExpression
    rw [if_pos h]
  · intro e he
    unfold evaluateExpression
    split
    · rfl
    · rw [he]
  · intro value hne he
    unfold evaluateExpression
    rw [if_neg hne, he]
    rfl
  · intro m shown
    refine ⟨?_, ?_, ?_⟩ <;> with_unfolding_all rfl


end Calc
